import Mathlib

/-!
Shallow embedding of the block-list memory allocator in `src/memory_manager.c`.

Modelling conventions:
* The pool is a `List Nat` of byte values; `malloc`-fresh bytes are modelled
  as 0 (no claim reads a byte before it is written).
* Linked-list nodes carry an `id : Nat` mirroring node identity (`malloc`
  returns a fresh node, `free` destroys it).  The C code keeps the pointer
  `block` across `merge_free_blocks` in the relocate-on-grow path; if the
  node was freed by the merge, the subsequent write is undefined behaviour,
  modelled by the explicit result `OpResult.ub`.
* `size_t` subtraction that can wrap (`new_size - block->size` in the
  in-place grow test) is modelled with an explicit `% 2 ^ 64`.
* Addresses are offsets into the pool (the C code uses raw pointers into
  `memory_pool`; pointer arithmetic becomes arithmetic on offsets).
* Functions that in C take the whole `MemoryManager*` but only read the
  block list are curried over the block list.
-/

namespace MemMgr

def MAX_VARIABLES : Nat := 100

/-- `size_t` modulus (64-bit). -/
def sizeTMod : Nat := 2 ^ 64

/-- Wrapping `size_t` subtraction, faithful for arguments below `2 ^ 64`. -/
def sizeTSub (a b : Nat) : Nat := (a + sizeTMod - b) % sizeTMod

/-- One node of the block list (`struct MemoryBlock`). -/
structure Block where
  variable_name : String
  addr : Nat
  size : Nat
  is_free : Bool
  id : Nat
deriving DecidableEq, Repr

/-- One registry record (`struct Variable`). -/
structure Variable where
  name : String
  addr : Nat
  size : Nat
deriving DecidableEq, Repr

/-- The allocator state (`struct MemoryManager`). -/
structure MemoryManager where
  pool : List Nat
  pool_size : Nat
  blocks : List Block
  vars : List Variable
  allocation_algorithm : Int
  nextId : Nat
deriving DecidableEq, Repr

inductive MemError where
  | DuplicateVariable
  | RegistryFull
  | OutOfMemory
  | VariableNotFound
  | InvariantViolation
deriving DecidableEq, Repr

/-- Result of one public operation: success state, error with resulting
state (C functions return `false` but may still have mutated), or
undefined behaviour (write through a freed node pointer). -/
inductive OpResult where
  | ok (s : MemoryManager)
  | err (e : MemError) (s : MemoryManager)
  | ub
deriving DecidableEq, Repr

/-- `init_memory_manager`: single free block covering the whole pool. -/
def init_memory_manager (pool_size : Nat) (algorithm : Int) : MemoryManager :=
  { pool := List.replicate pool_size 0
    pool_size := pool_size
    blocks := [⟨ "", 0, pool_size, true, 0⟩]
    vars := []
    allocation_algorithm := algorithm
    nextId := 1 }

/-- `find_variable`: first registry record with exactly matching name. -/
def find_variable : List Variable → String → Option Variable
  | [], _ => none
  | v :: rest, n => if v.name = n then some v else find_variable rest n

/-- `find_free_block`: first free block with size at least the request. -/
def find_free_block : List Block → Nat → Option Block
  | [], _ => none
  | b :: rest, r => if b.is_free = true ∧ r ≤ b.size then some b else find_free_block rest r

/-- `first_fit` is `find_free_block`. -/
def first_fit (blocks : List Block) (r : Nat) : Option Block :=
  find_free_block blocks r

/-- Loop body of `best_fit`: scan keeping the smallest sufficient free
block seen so far, replacing only on strictly smaller size. -/
def bestFitLoop (r : Nat) : List Block → Option Block → Option Block
  | [], best => best
  | c :: rest, best =>
    bestFitLoop r rest
      (if c.is_free = true ∧ r ≤ c.size then
        match best with
        | none => some c
        | some b => if c.size < b.size then some c else some b
      else best)

def best_fit (blocks : List Block) (r : Nat) : Option Block :=
  bestFitLoop r blocks none

/-- Loop body of `worst_fit`: keep the largest sufficient free block,
replacing only on strictly larger size. -/
def worstFitLoop (r : Nat) : List Block → Option Block → Option Block
  | [], best => best
  | c :: rest, best =>
    worstFitLoop r rest
      (if c.is_free = true ∧ r ≤ c.size then
        match best with
        | none => some c
        | some b => if b.size < c.size then some c else some b
      else best)

def worst_fit (blocks : List Block) (r : Nat) : Option Block :=
  worstFitLoop r blocks none

/-- `select_block`: dispatch on `allocation_algorithm`; any value other
than 0, 1, 2 falls through to First-fit (the `default:` case). -/
def select_block (mm : MemoryManager) (r : Nat) : Option Block :=
  if mm.allocation_algorithm = 0 then first_fit mm.blocks r
  else if mm.allocation_algorithm = 1 then best_fit mm.blocks r
  else if mm.allocation_algorithm = 2 then worst_fit mm.blocks r
  else first_fit mm.blocks r

/-- Write `is_free` and `variable_name` of the node with the given id
(the C code mutates one node through a pointer; ids are unique in
reachable states). -/
def mark_block (blocks : List Block) (i : Nat) (fr : Bool) (n : String) : List Block :=
  blocks.map (fun b => if b.id = i then { b with is_free := fr, variable_name := n } else b)

/-- `split_block` on the node with the given id: if the node is larger
than `keep`, truncate it and insert a fresh free node for the remainder. -/
def split_block : List Block → Nat → Nat → Nat → List Block
  | [], _, _, _ => []
  | b :: rest, i, keep, fid =>
    if b.id = i then
      if keep < b.size then
        { b with size := keep } :: ⟨ "", b.addr + keep, b.size - keep, true, fid⟩ :: rest
      else b :: rest
    else b :: split_block rest i keep fid

/-- Loop of `merge_free_blocks`, with explicit fuel so that the kernel can
evaluate it (each iteration shortens the list, so fuel equal to the list
length is never exhausted; the `0` arm is unreachable from
`merge_free_blocks`). -/
def mergeLoop : Nat → List Block → List Block
  | _, [] => []
  | _, [b] => [b]
  | 0, b :: c :: rest => b :: c :: rest
  | fuel + 1, b :: c :: rest =>
    if b.is_free = true ∧ c.is_free = true ∧ b.addr + b.size = c.addr then
      mergeLoop fuel ({ b with size := b.size + c.size } :: rest)
    else
      b :: mergeLoop fuel (c :: rest)

/-- `merge_free_blocks`: one scan; whenever the current and next node are
both free and physically adjacent, absorb the next node into the current
one and continue from the current node. -/
def merge_free_blocks (l : List Block) : List Block := mergeLoop l.length l

/-- Byte `i` of the cyclic name fill pattern (0 for the empty name,
matching the `memset` branch). -/
def patByte (name : String) (i : Nat) : Nat :=
  let bs := name.toList.map Char.toNat
  if bs.length = 0 then 0 else bs.getD (i % bs.length) 0

/-- Write `pool[a + i + k] := patByte name (i + k)` for `k < cnt`
(the C fill loops, one byte at a time). -/
def fillFrom (pool : List Nat) (a : Nat) (name : String) (i cnt : Nat) : List Nat :=
  match cnt with
  | 0 => pool
  | k + 1 => fillFrom (pool.set (a + i) (patByte name i)) a name (i + 1) k

/-- Fill offsets `[lo, hi)` of the region at `a` with the name pattern. -/
def fillRange (pool : List Nat) (a : Nat) (name : String) (lo hi : Nat) : List Nat :=
  fillFrom pool a name lo (hi - lo)

/-- `memcpy(dst, src, cnt)` as an ascending byte copy (all uses in the
source have `dst ≤ src`, where this coincides with a snapshot copy). -/
def copyRange (pool : List Nat) (dst src cnt : Nat) : List Nat :=
  match cnt with
  | 0 => pool
  | k + 1 => copyRange (pool.set dst (pool.getD src 0)) (dst + 1) (src + 1) k

/-- `alloc_memory`. -/
def alloc_memory (mm : MemoryManager) (var_name : String) (size : Nat) : OpResult :=
  if (find_variable mm.vars var_name).isSome then .err .DuplicateVariable mm
  else if MAX_VARIABLES ≤ mm.vars.length then .err .RegistryFull mm
  else
    match select_block mm size with
    | none => .err .OutOfMemory mm
    | some block =>
      let blocks1 := split_block (mark_block mm.blocks block.id false var_name) block.id size mm.nextId
      let vars1 := mm.vars ++ [⟨var_name, block.addr, size⟩]
      let pool1 := fillRange mm.pool block.addr var_name 0 size
      .ok { mm with blocks := blocks1, vars := vars1, pool := pool1,
                    nextId := mm.nextId + 1 }

/-- First block that is occupied and starts at the given address
(the block search loop shared by `realloc_memory` and `free_memory`). -/
def find_block_for : List Block → Nat → Option Block
  | [], _ => none
  | b :: rest, a => if b.addr = a ∧ b.is_free = false then some b else find_block_for rest a

/-- Node by id (used to detect whether the held pointer survived a merge). -/
def find_by_id : List Block → Nat → Option Block
  | [], _ => none
  | b :: rest, i => if b.id = i then some b else find_by_id rest i

/-- List successor of the node with the given id (`block->next`). -/
def block_after : List Block → Nat → Option Block
  | [], _ => none
  | b :: rest, i => if b.id = i then rest.head? else block_after rest i

/-- In-place grow: set the block size to `new_size` and consume `needed`
bytes from its list successor, removing the successor if fully consumed. -/
def grow_in_place : List Block → Nat → Nat → Nat → List Block
  | [], _, _, _ => []
  | b :: rest, i, new_size, needed =>
    if b.id = i then
      { b with size := new_size } ::
        (match rest with
         | [] => []
         | n :: rest2 =>
           if n.size - needed = 0 then rest2
           else { n with addr := n.addr + needed, size := n.size - needed } :: rest2)
    else b :: grow_in_place rest i new_size needed

/-- Update the first registry record with the given name (`var->address`,
`var->size` assignments through the pointer from `find_variable`). -/
def update_variable : List Variable → String → Nat → Nat → List Variable
  | [], _, _, _ => []
  | v :: rest, n, a, s =>
    if v.name = n then { v with addr := a, size := s } :: rest
    else v :: update_variable rest n a s

/-- Remove the first registry record with the given name (the left-shift
compaction loop in `free_memory`). -/
def remove_variable : List Variable → String → List Variable
  | [], _ => []
  | v :: rest, n => if v.name = n then rest else v :: remove_variable rest n

/-- The relocate branch of `realloc_memory`: provisionally free the block,
merge, select a new block; on failure restore through the held pointer
(undefined behaviour if the node was freed by the merge). -/
def relocate_grow (mm : MemoryManager) (var_name : String) (var : Variable)
    (blockId : Nat) (old_size new_size : Nat) : OpResult :=
  match select_block
      { mm with blocks := merge_free_blocks (mark_block mm.blocks blockId true "") }
      new_size with
  | none =>
    match find_by_id (merge_free_blocks (mark_block mm.blocks blockId true "")) blockId with
    | some _ =>
      .err .OutOfMemory
        { mm with
          blocks := mark_block (merge_free_blocks (mark_block mm.blocks blockId true ""))
            blockId false var_name }
    | none => .ub
  | some nb =>
    let copy_size := min old_size new_size
    let pool1 := copyRange mm.pool nb.addr var.addr copy_size
    let blocks1 := split_block (mark_block
        (merge_free_blocks (mark_block mm.blocks blockId true "")) nb.id false var_name)
        nb.id new_size mm.nextId
    let vars1 := update_variable mm.vars var_name nb.addr new_size
    let pool2 := fillRange pool1 nb.addr var_name copy_size new_size
    .ok { mm with blocks := blocks1, vars := vars1, pool := pool2,
                  nextId := mm.nextId + 1 }

/-- `realloc_memory`.  The C local `old_size = var->size` is written
`var.size` throughout: `var` is an immutable snapshot here, while in C
`var->size` is only overwritten after its last read as `old_size`. -/
def realloc_memory (mm : MemoryManager) (var_name : String) (new_size : Nat) : OpResult :=
  match find_variable mm.vars var_name with
  | none => .err .VariableNotFound mm
  | some var =>
    match find_block_for mm.blocks var.addr with
    | none => .err .InvariantViolation mm
    | some block =>
      if new_size ≤ var.size then
        let blocks1 :=
          if new_size < block.size then
            merge_free_blocks (split_block mm.blocks block.id new_size mm.nextId)
          else mm.blocks
        let vars1 := update_variable mm.vars var_name var.addr new_size
        let pool1 := fillRange mm.pool block.addr var_name 0 new_size
        .ok { mm with blocks := blocks1, vars := vars1, pool := pool1,
                      nextId := mm.nextId + 1 }
      else
        match block_after mm.blocks block.id with
        | some n =>
          if new_size ≤ block.size + (if n.is_free = true ∧ block.addr + block.size = n.addr then n.size else 0)
              ∧ n.is_free = true ∧ block.addr + block.size = n.addr
              ∧ sizeTSub new_size block.size ≤ n.size then
            let blocks1 := grow_in_place mm.blocks block.id new_size (sizeTSub new_size block.size)
            let vars1 := update_variable mm.vars var_name var.addr new_size
            let pool1 := fillRange mm.pool block.addr var_name var.size new_size
            .ok { mm with blocks := blocks1, vars := vars1, pool := pool1 }
          else relocate_grow mm var_name var block.id var.size new_size
        | none => relocate_grow mm var_name var block.id var.size new_size

/-- `free_memory`. -/
def free_memory (mm : MemoryManager) (var_name : String) : OpResult :=
  match find_variable mm.vars var_name with
  | none => .err .VariableNotFound mm
  | some var =>
    match find_block_for mm.blocks var.addr with
    | none => .err .InvariantViolation mm
    | some block =>
      let blocks1 := merge_free_blocks (mark_block mm.blocks block.id true "")
      let vars1 := remove_variable mm.vars var_name
      .ok { mm with blocks := blocks1, vars := vars1 }

/-- A public operation of the facade. -/
inductive Op where
  | alloc (name : String) (size : Nat)
  | resize (name : String) (new_size : Nat)
  | release (name : String)
deriving DecidableEq, Repr

def applyOp (mm : MemoryManager) : Op → OpResult
  | .alloc n s => alloc_memory mm n s
  | .resize n s => realloc_memory mm n s
  | .release n => free_memory mm n

/-- The state after an operation completes (errors included); `none` on
undefined behaviour. -/
def resultState : OpResult → Option MemoryManager
  | .ok s => some s
  | .err _ s => some s
  | .ub => none

/-- Run a command list, requiring every operation to succeed. -/
def runOk (mm : MemoryManager) : List Op → Option MemoryManager
  | [] => some mm
  | op :: rest =>
    match applyOp mm op with
    | .ok s => runOk s rest
    | _ => none

/-- Run a command list through completed operations (failed operations
keep their resulting state, as in the C driver loop). -/
def runAll (mm : MemoryManager) : List Op → Option MemoryManager
  | [] => some mm
  | op :: rest =>
    match resultState (applyOp mm op) with
    | some s => runAll s rest
    | none => none

/-- Sizes passed to an operation are `size_t` values. -/
def opSizeOk : Op → Prop
  | .alloc _ s => s < sizeTMod
  | .resize _ s => s < sizeTMod
  | .release _ => True

/-- States reachable from a fresh pool by completed operations. -/
inductive Reachable (P : Nat) (alg : Int) : MemoryManager → Prop
  | init : Reachable P alg (init_memory_manager P alg)
  | step {mm mm' : MemoryManager} (op : Op) :
      Reachable P alg mm → opSizeOk op →
      resultState (applyOp mm op) = some mm' → Reachable P alg mm'

/-- The state after `ALLOC x 100` on a fresh 10000-byte pool (First-fit). -/
def c9s1 : Option MemoryManager := runOk (init_memory_manager 10000 0) [.alloc "x" 100]

/-- The state after additionally running `REALLOC x 40; REALLOC x 100`,
requiring every operation to succeed. -/
def c9s3 : Option MemoryManager := c9s1.bind fun s => runOk s [.resize "x" 40, .resize "x" 100]

/-- The first 40 bytes of variable `x`'s storage in a state. -/
def c9bytes (os : Option MemoryManager) : Option (List Nat) :=
  os.bind fun mm => (find_variable mm.vars "x").map fun v => (mm.pool.drop v.addr).take 40

/-- The Block List starting at address `a` is contiguous: each segment
starts exactly where the previous one ends. -/
def chainFrom : Nat → List Block → Prop
  | _, [] => True
  | a, b :: rest => b.addr = a ∧ chainFrom (a + b.size) rest

/-- Total length of the segments of a Block List. -/
def sumSizes (l : List Block) : Nat := (l.map Block.size).sum

/-- No two list-consecutive segments are both Free. -/
def noAdjFree (l : List Block) : Prop :=
  List.Chain' (fun b c => ¬(b.is_free = true ∧ c.is_free = true)) l

/-- Well-formedness of an allocator state over a pool of capacity `P`:
the Block List is an address-ordered partition of `[0, P)` (contiguous
from 0 with total length `P`) with no two consecutive Free segments, the
pool holds `P` bytes, and the node ids are distinct and below the
fresh-id counter (node identity of the C linked list). -/
structure WF (P : Nat) (mm : MemoryManager) : Prop where
  pool_sz : mm.pool_size = P
  pool_len : mm.pool.length = P
  chain : chainFrom 0 mm.blocks
  total : sumSizes mm.blocks = P
  noadj : noAdjFree mm.blocks
  ids_lt : ∀ b ∈ mm.blocks, b.id < mm.nextId
  ids_nd : (mm.blocks.map Block.id).Nodup

/-- Left-biased minimum-by-size combination of two scan results (the
accumulator update of the `best_fit` loop, as a binary operation). -/
def comboMin : Option Block → Option Block → Option Block
  | none, y => y
  | some b, none => some b
  | some b, some c => if c.size < b.size then some c else some b

/-- Left-biased maximum-by-size combination of two scan results (the
accumulator update of the `worst_fit` loop, as a binary operation). -/
def comboMax : Option Block → Option Block → Option Block
  | none, y => y
  | some b, none => some b
  | some b, some c => if b.size < c.size then some c else some b

/-! ## Properties of `merge_free_blocks` -/

/-- Two list-consecutive nodes that `merge_free_blocks` would combine. -/
def mergeable (b c : Block) : Prop :=
  b.is_free = true ∧ c.is_free = true ∧ b.addr + b.size = c.addr

theorem mergeLoop_head_facts : ∀ (fuel : Nat) (b : Block) (l : List Block),
    ∃ b2 t, mergeLoop fuel (b :: l) = b2 :: t ∧ b2.addr = b.addr ∧ b2.is_free = b.is_free := by
  intro fuel
  induction fuel with
  | zero =>
    intro b l
    cases l with
    | nil => exact ⟨b, [], rfl, rfl, rfl⟩
    | cons c rest => exact ⟨b, c :: rest, rfl, rfl, rfl⟩
  | succ n ih =>
    intro b l
    cases l with
    | nil => exact ⟨b, [], rfl, rfl, rfl⟩
    | cons c rest =>
      simp only [mergeLoop]
      by_cases h : b.is_free = true ∧ c.is_free = true ∧ b.addr + b.size = c.addr
      · rw [if_pos h]
        obtain ⟨b2, t, he, ha, hf⟩ := ih { b with size := b.size + c.size } rest
        exact ⟨b2, t, he, ha, hf⟩
      · rw [if_neg h]
        exact ⟨b, _, rfl, rfl, rfl⟩

theorem mergeLoop_chain : ∀ (fuel : Nat) (l : List Block), l.length ≤ fuel + 1 →
    List.Chain' (fun b c => ¬ mergeable b c) (mergeLoop fuel l) := by
  intro fuel
  induction fuel with
  | zero =>
    intro l h
    match l with
    | [] => simp [mergeLoop]
    | [b] => simp [mergeLoop]
    | b :: c :: rest => simp at h
  | succ n ih =>
    intro l h
    match l with
    | [] => simp [mergeLoop]
    | [b] => simp [mergeLoop]
    | b :: c :: rest =>
      simp only [mergeLoop]
      have hlen : rest.length + 2 ≤ n + 2 := by simpa using h
      by_cases hm : b.is_free = true ∧ c.is_free = true ∧ b.addr + b.size = c.addr
      · rw [if_pos hm]
        exact ih _ (by simp; omega)
      · rw [if_neg hm]
        obtain ⟨c2, t, he, ha, hf⟩ := mergeLoop_head_facts n c rest
        rw [he]
        refine List.chain'_cons.mpr ⟨?_, ?_⟩
        · intro hmm
          exact hm ⟨hmm.1, by rw [← hf]; exact hmm.2.1, by rw [← ha]; exact hmm.2.2⟩
        · rw [← he]
          exact ih _ (by simp; omega)

theorem mergeLoop_fix : ∀ (fuel : Nat) (l : List Block),
    List.Chain' (fun b c => ¬ mergeable b c) l → mergeLoop fuel l = l := by
  intro fuel
  induction fuel with
  | zero =>
    intro l _
    match l with
    | [] => rfl
    | [b] => rfl
    | b :: c :: rest => rfl
  | succ n ih =>
    intro l h
    match l with
    | [] => rfl
    | [b] => rfl
    | b :: c :: rest =>
      simp only [mergeLoop]
      have h1 := (List.chain'_cons.mp h).1
      have h2 := (List.chain'_cons.mp h).2
      rw [if_neg (by exact fun hc => h1 ⟨hc.1, hc.2.1, hc.2.2⟩)]
      rw [ih _ h2]

/-! ## Properties of the placement strategies -/

theorem comboMin_none_right : ∀ x : Option Block, comboMin x none = x := by
  intro x; cases x <;> rfl

theorem comboMin_assoc : ∀ x y z : Option Block,
    comboMin (comboMin x y) z = comboMin x (comboMin y z) := by
  intro x y z
  cases x <;> cases y <;> cases z <;> simp only [comboMin] <;> split_ifs <;>
    simp only [comboMin] <;> split_ifs <;> first | rfl | omega

theorem bestFitLoop_acc (r : Nat) : ∀ (l : List Block) (acc : Option Block),
    bestFitLoop r l acc = comboMin acc (bestFitLoop r l none) := by
  intro l
  induction l with
  | nil => intro acc; cases acc <;> rfl
  | cons c rest ih =>
    intro acc
    simp only [bestFitLoop]
    by_cases hq : c.is_free = true ∧ r ≤ c.size
    · rw [if_pos hq, if_pos hq]
      have hstep : (match acc with
          | none => some c
          | some b => if c.size < b.size then some c else some b) = comboMin acc (some c) := by
        cases acc <;> rfl
      rw [hstep, ih (comboMin acc (some c)), ih (some c), comboMin_assoc]
    · rw [if_neg hq, if_neg hq]
      exact ih acc

theorem best_fit_cons (r : Nat) (c : Block) (rest : List Block) :
    best_fit (c :: rest) r =
      comboMin (if c.is_free = true ∧ r ≤ c.size then some c else none) (best_fit rest r) := by
  unfold best_fit
  simp only [bestFitLoop]
  by_cases hq : c.is_free = true ∧ r ≤ c.size
  · rw [if_pos hq]
    exact bestFitLoop_acc r rest (some c)
  · rw [if_neg hq]
    rfl

theorem best_fit_none_iff (r : Nat) : ∀ (l : List Block),
    best_fit l r = none ↔ ∀ b ∈ l, ¬(b.is_free = true ∧ r ≤ b.size) := by
  intro l
  induction l with
  | nil => simp [best_fit, bestFitLoop]
  | cons c rest ih =>
    rw [best_fit_cons]
    constructor
    · intro h
      by_cases hq : c.is_free = true ∧ r ≤ c.size
      · rw [if_pos hq] at h
        cases hrest : best_fit rest r <;> rw [hrest] at h <;> simp [comboMin] at h
        split at h <;> simp at h
      · rw [if_neg hq] at h
        simp only [comboMin] at h
        intro b hb
        rcases List.mem_cons.mp hb with hbc | hbr
        · rw [hbc]; exact hq
        · exact (ih.mp h) b hbr
    · intro h
      have hq : ¬(c.is_free = true ∧ r ≤ c.size) := h c (List.mem_cons_self c rest)
      rw [if_neg hq]
      simp only [comboMin]
      exact ih.mpr (fun b hb => h b (List.mem_cons_of_mem c hb))

theorem best_fit_min : ∀ (l : List Block) (r : Nat) (b : Block), best_fit l r = some b →
    b ∈ l ∧ (b.is_free = true ∧ r ≤ b.size) ∧
      ∀ c ∈ l, c.is_free = true → r ≤ c.size → b.size ≤ c.size := by
  intro l
  induction l with
  | nil => intro r b h; simp [best_fit, bestFitLoop] at h
  | cons c rest ih =>
    intro r b h
    rw [best_fit_cons] at h
    by_cases hq : c.is_free = true ∧ r ≤ c.size
    · rw [if_pos hq] at h
      cases hrest : best_fit rest r with
      | none =>
        rw [hrest] at h
        simp only [comboMin] at h
        cases h
        refine ⟨List.mem_cons_self c rest, hq, ?_⟩
        intro d hd hdf hds
        rcases List.mem_cons.mp hd with hdc | hdr
        · rw [hdc]
        · exact absurd ⟨hdf, hds⟩ ((best_fit_none_iff r rest).mp hrest d hdr)
      | some d =>
        rw [hrest] at h
        simp only [comboMin] at h
        obtain ⟨hdm, hdq, hdmin⟩ := ih r d hrest
        split at h
        · cases h
          refine ⟨List.mem_cons_of_mem c hdm, hdq, ?_⟩
          intro e he hef hes
          rcases List.mem_cons.mp he with hec | her
          · rw [hec] at *; omega
          · exact hdmin e her hef hes
        · cases h
          refine ⟨List.mem_cons_self c rest, hq, ?_⟩
          intro e he hef hes
          rcases List.mem_cons.mp he with hec | her
          · rw [hec]
          · have := hdmin e her hef hes; omega
    · rw [if_neg hq] at h
      simp only [comboMin] at h
      obtain ⟨hbm, hbq, hbmin⟩ := ih r b h
      refine ⟨List.mem_cons_of_mem c hbm, hbq, ?_⟩
      intro e he hef hes
      rcases List.mem_cons.mp he with hec | her
      · exact absurd ⟨hec ▸ hef, hec ▸ hes⟩ hq
      · exact hbmin e her hef hes

theorem best_fit_earliest : ∀ (l : List Block) (r : Nat) (b : Block), best_fit l r = some b →
    ∃ j, ∃ hj : j < l.length, l.get ⟨j, hj⟩ = b ∧
      ∀ k, ∀ hk : k < l.length,
        (l.get ⟨k, hk⟩).is_free = true → r ≤ (l.get ⟨k, hk⟩).size →
        (l.get ⟨k, hk⟩).size = b.size → j ≤ k := by
  intro l
  induction l with
  | nil => intro r b h; simp [best_fit, bestFitLoop] at h
  | cons c rest ih =>
    intro r b h
    rw [best_fit_cons] at h
    by_cases hq : c.is_free = true ∧ r ≤ c.size
    · rw [if_pos hq] at h
      cases hrest : best_fit rest r with
      | none =>
        rw [hrest] at h
        simp only [comboMin] at h
        cases h
        exact ⟨0, by simp, rfl, fun k hk _ _ _ => Nat.zero_le k⟩
      | some d =>
        rw [hrest] at h
        simp only [comboMin] at h
        split at h
        · cases h
          obtain ⟨j, hj, hget, hmin⟩ := ih r b hrest
          refine ⟨j + 1, by simpa using Nat.succ_lt_succ hj, hget, ?_⟩
          intro k hk hkf hks hkeq
          match k with
          | 0 =>
            exfalso
            simp only [List.get] at hkeq
            omega
          | k + 1 =>
            exact Nat.succ_le_succ (hmin k (by simpa using Nat.lt_of_succ_lt_succ hk) hkf hks hkeq)
        · cases h
          exact ⟨0, by simp, rfl, fun k hk _ _ _ => Nat.zero_le k⟩
    · rw [if_neg hq] at h
      simp only [comboMin] at h
      obtain ⟨j, hj, hget, hmin⟩ := ih r b h
      refine ⟨j + 1, by simpa using Nat.succ_lt_succ hj, hget, ?_⟩
      intro k hk hkf hks hkeq
      match k with
      | 0 =>
        exfalso
        simp only [List.get] at hkf hks
        exact hq ⟨hkf, hks⟩
      | k + 1 =>
        exact Nat.succ_le_succ (hmin k (by simpa using Nat.lt_of_succ_lt_succ hk) hkf hks hkeq)

theorem comboMax_assoc : ∀ x y z : Option Block,
    comboMax (comboMax x y) z = comboMax x (comboMax y z) := by
  intro x y z
  cases x <;> cases y <;> cases z <;> simp only [comboMax] <;> split_ifs <;>
    simp only [comboMax] <;> split_ifs <;> first | rfl | omega

theorem worstFitLoop_acc (r : Nat) : ∀ (l : List Block) (acc : Option Block),
    worstFitLoop r l acc = comboMax acc (worstFitLoop r l none) := by
  intro l
  induction l with
  | nil => intro acc; cases acc <;> rfl
  | cons c rest ih =>
    intro acc
    simp only [worstFitLoop]
    by_cases hq : c.is_free = true ∧ r ≤ c.size
    · rw [if_pos hq, if_pos hq]
      have hstep : (match acc with
          | none => some c
          | some b => if b.size < c.size then some c else some b) = comboMax acc (some c) := by
        cases acc <;> rfl
      rw [hstep, ih (comboMax acc (some c)), ih (some c), comboMax_assoc]
    · rw [if_neg hq, if_neg hq]
      exact ih acc

theorem worst_fit_cons (r : Nat) (c : Block) (rest : List Block) :
    worst_fit (c :: rest) r =
      comboMax (if c.is_free = true ∧ r ≤ c.size then some c else none) (worst_fit rest r) := by
  unfold worst_fit
  simp only [worstFitLoop]
  by_cases hq : c.is_free = true ∧ r ≤ c.size
  · rw [if_pos hq]
    exact worstFitLoop_acc r rest (some c)
  · rw [if_neg hq]
    rfl

theorem worst_fit_none_iff (r : Nat) : ∀ (l : List Block),
    worst_fit l r = none ↔ ∀ b ∈ l, ¬(b.is_free = true ∧ r ≤ b.size) := by
  intro l
  induction l with
  | nil => simp [worst_fit, worstFitLoop]
  | cons c rest ih =>
    rw [worst_fit_cons]
    constructor
    · intro h
      by_cases hq : c.is_free = true ∧ r ≤ c.size
      · rw [if_pos hq] at h
        cases hrest : worst_fit rest r <;> rw [hrest] at h <;> simp [comboMax] at h
        split at h <;> simp at h
      · rw [if_neg hq] at h
        simp only [comboMax] at h
        intro b hb
        rcases List.mem_cons.mp hb with hbc | hbr
        · rw [hbc]; exact hq
        · exact (ih.mp h) b hbr
    · intro h
      have hq : ¬(c.is_free = true ∧ r ≤ c.size) := h c (List.mem_cons_self c rest)
      rw [if_neg hq]
      simp only [comboMax]
      exact ih.mpr (fun b hb => h b (List.mem_cons_of_mem c hb))

theorem worst_fit_mem : ∀ (l : List Block) (r : Nat) (b : Block), worst_fit l r = some b →
    b ∈ l ∧ b.is_free = true ∧ r ≤ b.size := by
  intro l
  induction l with
  | nil => intro r b h; simp [worst_fit, worstFitLoop] at h
  | cons c rest ih =>
    intro r b h
    rw [worst_fit_cons] at h
    by_cases hq : c.is_free = true ∧ r ≤ c.size
    · rw [if_pos hq] at h
      cases hrest : worst_fit rest r with
      | none =>
        rw [hrest] at h
        simp only [comboMax] at h
        cases h
        exact ⟨List.mem_cons_self c rest, hq⟩
      | some d =>
        rw [hrest] at h
        simp only [comboMax] at h
        obtain ⟨hdm, hdq⟩ := ih r d hrest
        split at h
        · cases h; exact ⟨List.mem_cons_of_mem c hdm, hdq⟩
        · cases h; exact ⟨List.mem_cons_self c rest, hq⟩
    · rw [if_neg hq] at h
      simp only [comboMax] at h
      obtain ⟨hbm, hbq⟩ := ih r b h
      exact ⟨List.mem_cons_of_mem c hbm, hbq⟩

theorem find_free_block_none_iff (r : Nat) : ∀ (l : List Block),
    find_free_block l r = none ↔ ∀ b ∈ l, ¬(b.is_free = true ∧ r ≤ b.size) := by
  intro l
  induction l with
  | nil => simp [find_free_block]
  | cons c rest ih =>
    simp only [find_free_block]
    by_cases hq : c.is_free = true ∧ r ≤ c.size
    · rw [if_pos hq]
      simp only [List.mem_cons]
      constructor
      · intro h; cases h
      · intro h; exact absurd hq (h c (Or.inl rfl))
    · rw [if_neg hq]
      rw [ih]
      constructor
      · intro h b hb
        rcases List.mem_cons.mp hb with hbc | hbr
        · rw [hbc]; exact hq
        · exact h b hbr
      · intro h b hb
        exact h b (List.mem_cons_of_mem c hb)

theorem find_free_block_mem : ∀ (l : List Block) (r : Nat) (b : Block),
    find_free_block l r = some b → b ∈ l ∧ b.is_free = true ∧ r ≤ b.size := by
  intro l
  induction l with
  | nil => intro r b h; simp [find_free_block] at h
  | cons c rest ih =>
    intro r b h
    simp only [find_free_block] at h
    by_cases hq : c.is_free = true ∧ r ≤ c.size
    · rw [if_pos hq] at h
      cases h
      exact ⟨List.mem_cons_self c rest, hq⟩
    · rw [if_neg hq] at h
      obtain ⟨hm, hb⟩ := ih r b h
      exact ⟨List.mem_cons_of_mem c hm, hb⟩

theorem select_block_mem (mm : MemoryManager) (r : Nat) (b : Block)
    (h : select_block mm r = some b) : b ∈ mm.blocks ∧ b.is_free = true ∧ r ≤ b.size := by
  unfold select_block at h
  split_ifs at h
  · exact find_free_block_mem mm.blocks r b h
  · have := best_fit_min mm.blocks r b h
    exact ⟨this.1, this.2.1⟩
  · exact worst_fit_mem mm.blocks r b h
  · exact find_free_block_mem mm.blocks r b h

theorem select_block_none_iff (mm : MemoryManager) (r : Nat) :
    select_block mm r = none ↔ ∀ b ∈ mm.blocks, ¬(b.is_free = true ∧ r ≤ b.size) := by
  unfold select_block
  split_ifs
  · exact find_free_block_none_iff r mm.blocks
  · exact best_fit_none_iff r mm.blocks
  · exact worst_fit_none_iff r mm.blocks
  · exact find_free_block_none_iff r mm.blocks

/-! ## Claim theorems (easy group) -/

/-- Claim C8: for every Block List state, applying `merge_adjacent`
(`merge_free_blocks`) twice in a row yields the same Block List as
applying it once — the merge pass is idempotent. -/
theorem claim_C8 (l : List Block) :
    merge_free_blocks (merge_free_blocks l) = merge_free_blocks l := by
  unfold merge_free_blocks
  exact mergeLoop_fix _ _ (mergeLoop_chain _ _ (by omega))

/-- Claim C10: when the configured allocation-algorithm code is any value
other than 0 (First-fit), 1 (Best-fit) or 2 (Worst-fit), `select_block`
returns exactly what First-fit returns on the same Block List and
request (the `default:` switch case). -/
theorem claim_C10 (mm : MemoryManager) (r : Nat)
    (h : mm.allocation_algorithm ≠ 0 ∧ mm.allocation_algorithm ≠ 1 ∧ mm.allocation_algorithm ≠ 2) :
    select_block mm r = first_fit mm.blocks r := by
  unfold select_block
  rw [if_neg h.1, if_neg h.2.1, if_neg h.2.2]

theorem claim_C10_witness :
    select_block (init_memory_manager 100 3) 5 = first_fit (init_memory_manager 100 3).blocks 5 :=
  claim_C10 (init_memory_manager 100 3) 5 (by decide)

/-- Claim C1 (refuted): on a 100-byte pool, after `ALLOC x 50` the block
list is `[Occupied(x,0,50), Free(50,50)]`; `REALLOC x 200` takes the
grow-relocate path, finds no candidate and fails with `OutOfMemory`, but
the rollback re-marks the provisionally freed and *merged* segment
Occupied, leaving the block list `[Occupied(x,0,100)]` — not the block
list from before the call. -/
theorem claim_C1 :
    ∃ s1, runOk (init_memory_manager 100 0) [.alloc "x" 50] = some s1 ∧
      ∃ s2, realloc_memory s1 "x" 200 = .err .OutOfMemory s2 ∧ s2.blocks ≠ s1.blocks := by
  refine ⟨_, rfl, _, rfl, ?_⟩
  decide

/-- Claim C2 (refuted): after the trace `ALLOC x 50; REALLOC x 200` on a
100-byte pool (the second operation completes with `OutOfMemory`), the
registry holds the record `(x, 0, 50)` but no Occupied segment of length
50 exists: the only Occupied segment has length 100, so the
registry/segment bijection is violated in a reachable state. -/
theorem claim_C2 :
    ∃ s, runAll (init_memory_manager 100 0) [.alloc "x" 50, .resize "x" 200] = some s ∧
      ∃ v ∈ s.vars, ∀ b ∈ s.blocks,
        ¬(b.is_free = false ∧ b.addr = v.addr ∧ b.size = v.size) := by
  refine ⟨_, rfl, ?_⟩
  decide

/-- Claim C4 (refuted): `ALLOC x 0` on a fresh 100-byte pool completes
successfully and leaves a zero-length Occupied segment in the Block List
(`split_block` truncates the chosen block to length 0). -/
theorem claim_C4 :
    ∃ s, runAll (init_memory_manager 100 0) [.alloc "x" 0] = some s ∧
      ∃ b ∈ s.blocks, b.size = 0 := by
  refine ⟨_, rfl, ?_⟩
  decide

set_option maxRecDepth 100000 in
/-- Claim C9: from a fresh pool (capacity 10000, First-fit), the sequence
`allocate(x,100); resize(x,40); resize(x,100)` succeeds, and the first 40
bytes of the variable's storage afterwards are exactly the bytes it had
after the first allocate (the name-pattern fill, all bytes 120 = `x`). -/
theorem claim_C9 :
    c9s3.isSome = true ∧ (c9bytes c9s3).isSome = true ∧ c9bytes c9s3 = c9bytes c9s1 := by
  refine ⟨by decide, by decide, ?_⟩
  have h3 : c9bytes c9s3 = some (List.replicate 40 120) := by decide
  have h1 : c9bytes c9s1 = some (List.replicate 40 120) := by decide
  rw [h3, h1]

/-- Claim C5: `best_fit` returns `none` exactly when no Free segment has
length at least the request; otherwise it returns a sufficient Free
segment of minimal length among the sufficient ones, and among those of
that minimal length the one earliest in the Block List (which is kept in
address order), because the strict `<` comparison never replaces an
equal-sized earlier candidate. -/
theorem claim_C5 (blocks : List Block) (r : Nat) :
    (best_fit blocks r = none ↔ ∀ b ∈ blocks, ¬(b.is_free = true ∧ r ≤ b.size)) ∧
    (∀ b, best_fit blocks r = some b →
      (b.is_free = true ∧ r ≤ b.size) ∧
      (∀ c ∈ blocks, c.is_free = true → r ≤ c.size → b.size ≤ c.size) ∧
      (∃ j, ∃ hj : j < blocks.length, blocks.get ⟨j, hj⟩ = b ∧
        ∀ k, ∀ hk : k < blocks.length,
          (blocks.get ⟨k, hk⟩).is_free = true → r ≤ (blocks.get ⟨k, hk⟩).size →
          (blocks.get ⟨k, hk⟩).size = b.size → j ≤ k)) := by
  refine ⟨best_fit_none_iff r blocks, ?_⟩
  intro b h
  obtain ⟨hm, hq, hmin⟩ := best_fit_min blocks r b h
  obtain ⟨j, hj, hget, hidx⟩ := best_fit_earliest blocks r b h
  exact ⟨hq, hmin, j, hj, hget, hidx⟩

theorem claim_C5_witness :
    best_fit [Block.mk "" 0 300 true 0, Block.mk "" 300 120 true 1] 100 =
      some (Block.mk "" 300 120 true 1) ∧
    (Block.mk "" 300 120 true 1).size ≤ (Block.mk "" 0 300 true 0).size := by
  refine ⟨rfl, ?_⟩
  exact ((claim_C5 [Block.mk "" 0 300 true 0, Block.mk "" 300 120 true 1] 100).2
    (Block.mk "" 300 120 true 1) rfl).2.1 (Block.mk "" 0 300 true 0) (by decide) rfl (by decide)

/-- Claim C7: `alloc_memory` checks its preconditions in order — a
registered duplicate name fails with `DuplicateVariable` (state
untouched); otherwise a full registry fails with `RegistryFull`;
otherwise absence of any sufficient Free segment (equivalently, the
configured strategy returns no candidate) fails with `OutOfMemory`; and
when all three preconditions hold the call succeeds. -/
theorem claim_C7 (mm : MemoryManager) (name : String) (size : Nat) :
    ((find_variable mm.vars name).isSome = true →
      alloc_memory mm name size = .err .DuplicateVariable mm) ∧
    (find_variable mm.vars name = none → MAX_VARIABLES ≤ mm.vars.length →
      alloc_memory mm name size = .err .RegistryFull mm) ∧
    (find_variable mm.vars name = none → mm.vars.length < MAX_VARIABLES →
      (∀ b ∈ mm.blocks, ¬(b.is_free = true ∧ size ≤ b.size)) →
      alloc_memory mm name size = .err .OutOfMemory mm) ∧
    (find_variable mm.vars name = none → mm.vars.length < MAX_VARIABLES →
      (∃ b ∈ mm.blocks, b.is_free = true ∧ size ≤ b.size) →
      ∃ s, alloc_memory mm name size = .ok s) := by
  unfold alloc_memory
  refine ⟨?_, ?_, ?_, ?_⟩
  · intro h
    rw [if_pos h]
  · intro h1 h2
    rw [if_neg (by rw [h1]; simp), if_pos h2]
  · intro h1 h2 h3
    rw [if_neg (by rw [h1]; simp), if_neg (by omega),
      (select_block_none_iff mm size).mpr h3]
  · intro h1 h2 h3
    rw [if_neg (by rw [h1]; simp), if_neg (by omega)]
    rcases hsel : select_block mm size with _ | blk
    · exfalso
      obtain ⟨b, hb, hf, hs⟩ := h3
      exact (select_block_none_iff mm size).mp hsel b hb ⟨hf, hs⟩
    · exact ⟨_, rfl⟩

theorem claim_C7_witness :
    ∃ s, alloc_memory (init_memory_manager 100 0) "x" 5 = .ok s := by
  refine (claim_C7 (init_memory_manager 100 0) "x" 5).2.2.2 rfl (by decide) ?_
  exact ⟨⟨ "", 0, 100, true, 0⟩, by decide⟩

/-! ## Basic lemmas on the Block List invariants -/

theorem sumSizes_cons (b : Block) (l : List Block) :
    sumSizes (b :: l) = b.size + sumSizes l := by
  simp [sumSizes]

theorem sumSizes_append (l1 l2 : List Block) :
    sumSizes (l1 ++ l2) = sumSizes l1 + sumSizes l2 := by
  simp [sumSizes]

theorem chainFrom_append : ∀ (l1 l2 : List Block) (a : Nat),
    chainFrom a (l1 ++ l2) ↔ chainFrom a l1 ∧ chainFrom (a + sumSizes l1) l2 := by
  intro l1
  induction l1 with
  | nil =>
    intro l2 a
    simp [chainFrom, sumSizes]
  | cons b rest ih =>
    intro l2 a
    constructor
    · intro h
      have h1 : b.addr = a := h.1
      have h2 := (ih l2 (a + b.size)).mp h.2
      refine ⟨⟨h1, h2.1⟩, ?_⟩
      rw [sumSizes_cons]
      have harith : a + (b.size + sumSizes rest) = a + b.size + sumSizes rest := by omega
      rw [harith]
      exact h2.2
    · intro h
      refine ⟨h.1.1, (ih l2 (a + b.size)).mpr ⟨h.1.2, ?_⟩⟩
      have h3 := h.2
      rw [sumSizes_cons] at h3
      have harith : a + b.size + sumSizes rest = a + (b.size + sumSizes rest) := by omega
      rw [harith]
      exact h3

theorem mark_block_cons (b : Block) (rest : List Block) (i : Nat) (fr : Bool) (n : String) :
    mark_block (b :: rest) i fr n =
      (if b.id = i then { b with is_free := fr, variable_name := n } else b) ::
        mark_block rest i fr n := rfl

theorem chainFrom_bounds : ∀ (l : List Block) (a : Nat) (b : Block),
    chainFrom a l → b ∈ l → a ≤ b.addr ∧ b.addr + b.size ≤ a + sumSizes l := by
  intro l
  induction l with
  | nil => intro a b _ hb; cases hb
  | cons c rest ih =>
    intro a b hch hb
    obtain ⟨hc, hrest⟩ := hch
    rw [sumSizes_cons]
    rcases List.mem_cons.mp hb with rfl | hbr
    · omega
    · have := ih (a + c.size) b hrest hbr
      omega

theorem chainFrom_mark : ∀ (l : List Block) (a i : Nat) (fr : Bool) (n : String),
    chainFrom a (mark_block l i fr n) ↔ chainFrom a l := by
  intro l
  induction l with
  | nil => intro a i fr n; exact Iff.rfl
  | cons b rest ih =>
    intro a i fr n
    rw [mark_block_cons]
    by_cases hb : b.id = i
    · rw [if_pos hb]
      exact ⟨fun h => ⟨h.1, (ih _ _ _ _).mp h.2⟩, fun h => ⟨h.1, (ih _ _ _ _).mpr h.2⟩⟩
    · rw [if_neg hb]
      exact ⟨fun h => ⟨h.1, (ih _ _ _ _).mp h.2⟩, fun h => ⟨h.1, (ih _ _ _ _).mpr h.2⟩⟩

theorem sumSizes_mark : ∀ (l : List Block) (i : Nat) (fr : Bool) (n : String),
    sumSizes (mark_block l i fr n) = sumSizes l := by
  intro l
  induction l with
  | nil => intro i fr n; rfl
  | cons b rest ih =>
    intro i fr n
    rw [mark_block_cons]
    by_cases hb : b.id = i
    · rw [if_pos hb, sumSizes_cons, sumSizes_cons]
      exact congrArg (fun x => b.size + x) (ih i fr n)
    · rw [if_neg hb, sumSizes_cons, sumSizes_cons]
      exact congrArg (fun x => b.size + x) (ih i fr n)

theorem ids_mark : ∀ (l : List Block) (i : Nat) (fr : Bool) (n : String),
    (mark_block l i fr n).map Block.id = l.map Block.id := by
  intro l
  induction l with
  | nil => intro i fr n; rfl
  | cons b rest ih =>
    intro i fr n
    rw [mark_block_cons]
    by_cases hb : b.id = i
    · rw [if_pos hb, List.map_cons, List.map_cons]
      exact congrArg (fun x => b.id :: x) (ih i fr n)
    · rw [if_neg hb, List.map_cons, List.map_cons]
      exact congrArg (fun x => b.id :: x) (ih i fr n)

theorem noadj_mark_occ (l : List Block) (i : Nat) (n : String)
    (h : noAdjFree l) : noAdjFree (mark_block l i false n) := by
  unfold noAdjFree mark_block at *
  rw [List.chain'_map]
  refine List.Chain'.imp ?_ h
  intro b c hbc hcon
  apply hbc
  constructor
  · have := hcon.1
    by_cases hb : b.id = i <;> (simp [hb] at this; try exact this)
  · have := hcon.2
    by_cases hc : c.id = i <;> (simp [hc] at this; try exact this)

theorem chainFrom_split : ∀ (l : List Block) (a i keep fid : Nat),
    chainFrom a l → chainFrom a (split_block l i keep fid) := by
  intro l
  induction l with
  | nil => intro a i keep fid h; exact h
  | cons b rest ih =>
    intro a i keep fid h
    obtain ⟨hb, hrest⟩ := h
    simp only [split_block]
    by_cases hid : b.id = i
    · rw [if_pos hid]
      by_cases hk : keep < b.size
      · rw [if_pos hk]
        refine ⟨hb, ?_, ?_⟩
        · show b.addr + keep = a + keep
          omega
        · show chainFrom (a + keep + (b.size - keep)) rest
          have : a + keep + (b.size - keep) = a + b.size := by omega
          rw [this]
          exact hrest
      · rw [if_neg hk]
        exact ⟨hb, hrest⟩
    · rw [if_neg hid]
      exact ⟨hb, ih _ _ _ _ hrest⟩

theorem sumSizes_split : ∀ (l : List Block) (i keep fid : Nat),
    sumSizes (split_block l i keep fid) = sumSizes l := by
  intro l
  induction l with
  | nil => intro i keep fid; rfl
  | cons b rest ih =>
    intro i keep fid
    simp only [split_block]
    by_cases hid : b.id = i
    · rw [if_pos hid]
      by_cases hk : keep < b.size
      · rw [if_pos hk, sumSizes_cons, sumSizes_cons, sumSizes_cons]
        show keep + (b.size - keep + sumSizes rest) = b.size + sumSizes rest
        omega
      · rw [if_neg hk]
    · rw [if_neg hid, sumSizes_cons, sumSizes_cons, ih]

theorem split_ids_sub : ∀ (l : List Block) (i keep fid : Nat) (y : Nat),
    y ∈ (split_block l i keep fid).map Block.id → y ∈ l.map Block.id ∨ y = fid := by
  intro l
  induction l with
  | nil => intro i keep fid y h; simp [split_block] at h
  | cons b rest ih =>
    intro i keep fid y h
    simp only [split_block] at h
    by_cases hid : b.id = i
    · rw [if_pos hid] at h
      by_cases hk : keep < b.size
      · rw [if_pos hk] at h
        rw [List.map_cons, List.map_cons] at h
        rcases List.mem_cons.mp h with h1 | h1
        · left
          rw [List.map_cons]
          exact List.mem_cons.mpr (Or.inl h1)
        · rcases List.mem_cons.mp h1 with h2 | h2
          · right
            exact h2
          · left
            rw [List.map_cons]
            exact List.mem_cons.mpr (Or.inr h2)
      · rw [if_neg hk] at h
        exact Or.inl h
    · rw [if_neg hid] at h
      rw [List.map_cons] at h
      rcases List.mem_cons.mp h with h1 | h1
      · left
        rw [List.map_cons]
        exact List.mem_cons.mpr (Or.inl h1)
      · rcases ih i keep fid y h1 with h2 | h2
        · left
          rw [List.map_cons]
          exact List.mem_cons.mpr (Or.inr h2)
        · right
          exact h2

theorem split_ids_nodup : ∀ (l : List Block) (i keep fid : Nat),
    (l.map Block.id).Nodup → fid ∉ l.map Block.id →
    ((split_block l i keep fid).map Block.id).Nodup := by
  intro l
  induction l with
  | nil => intro i keep fid _ _; simp [split_block]
  | cons b rest ih =>
    intro i keep fid hnd hf
    simp only [List.map_cons, List.nodup_cons] at hnd
    simp only [List.map_cons, List.mem_cons] at hf
    push_neg at hf
    simp only [split_block]
    by_cases hid : b.id = i
    · rw [if_pos hid]
      by_cases hk : keep < b.size
      · rw [if_pos hk]
        simp only [List.map_cons, List.nodup_cons, List.mem_cons]
        refine ⟨?_, ?_, hnd.2⟩
        · push_neg
          exact ⟨fun h => hf.1 h.symm, hnd.1⟩
        · exact hf.2
      · rw [if_neg hk]
        simp only [List.map_cons, List.nodup_cons]
        exact ⟨hnd.1, hnd.2⟩
    · rw [if_neg hid]
      simp only [List.map_cons, List.nodup_cons]
      refine ⟨?_, ih i keep fid hnd.2 hf.2⟩
      intro hmem
      rcases split_ids_sub rest i keep fid b.id hmem with h | h
      · exact hnd.1 h
      · exact hf.1 h.symm

theorem mergeLoop_sum : ∀ (fuel : Nat) (l : List Block),
    sumSizes (mergeLoop fuel l) = sumSizes l := by
  intro fuel
  induction fuel with
  | zero =>
    intro l
    match l with
    | [] => rfl
    | [b] => rfl
    | b :: c :: rest => rfl
  | succ n ih =>
    intro l
    match l with
    | [] => rfl
    | [b] => rfl
    | b :: c :: rest =>
      simp only [mergeLoop]
      by_cases hm : b.is_free = true ∧ c.is_free = true ∧ b.addr + b.size = c.addr
      · rw [if_pos hm, ih]
        rw [sumSizes_cons, sumSizes_cons, sumSizes_cons]
        show b.size + c.size + sumSizes rest = b.size + (c.size + sumSizes rest)
        omega
      · rw [if_neg hm, sumSizes_cons, sumSizes_cons, ih, sumSizes_cons]

theorem mergeLoop_chainFrom : ∀ (fuel : Nat) (l : List Block) (a : Nat),
    chainFrom a l → chainFrom a (mergeLoop fuel l) := by
  intro fuel
  induction fuel with
  | zero =>
    intro l a h
    match l with
    | [] => exact h
    | [b] => exact h
    | b :: c :: rest => exact h
  | succ n ih =>
    intro l a h
    match l with
    | [] => exact h
    | [b] => exact h
    | b :: c :: rest =>
      obtain ⟨hb, hc, hrest⟩ := h
      simp only [mergeLoop]
      by_cases hm : b.is_free = true ∧ c.is_free = true ∧ b.addr + b.size = c.addr
      · rw [if_pos hm]
        refine ih _ a ⟨hb, ?_⟩
        have : a + (b.size + c.size) = a + b.size + c.size := by omega
        rw [this]
        exact hrest
      · rw [if_neg hm]
        exact ⟨hb, ih _ _ ⟨hc, hrest⟩⟩

theorem mergeLoop_ids_sublist : ∀ (fuel : Nat) (l : List Block),
    List.Sublist ((mergeLoop fuel l).map Block.id) (l.map Block.id) := by
  intro fuel
  induction fuel with
  | zero =>
    intro l
    match l with
    | [] => exact List.Sublist.refl _
    | [b] => exact List.Sublist.refl _
    | b :: c :: rest => exact List.Sublist.refl _
  | succ n ih =>
    intro l
    match l with
    | [] => exact List.Sublist.refl _
    | [b] => exact List.Sublist.refl _
    | b :: c :: rest =>
      simp only [mergeLoop]
      by_cases hm : b.is_free = true ∧ c.is_free = true ∧ b.addr + b.size = c.addr
      · rw [if_pos hm]
        refine List.Sublist.trans (ih ({ b with size := b.size + c.size } :: rest)) ?_
        simp only [List.map_cons]
        exact List.Sublist.cons₂ _ (List.Sublist.cons _ (List.Sublist.refl _))
      · rw [if_neg hm]
        simp only [List.map_cons]
        exact List.Sublist.cons₂ _ (ih (c :: rest))

theorem noadj_of_chainFrom_nomergeable : ∀ (l : List Block) (a : Nat),
    chainFrom a l → List.Chain' (fun b c => ¬ mergeable b c) l → noAdjFree l := by
  intro l
  induction l with
  | nil => intro a _ _; exact List.chain'_nil
  | cons b rest ih =>
    intro a hch hnm
    obtain ⟨hb, hrest⟩ := hch
    cases rest with
    | nil => exact List.chain'_singleton b
    | cons c rest2 =>
      obtain ⟨hc, hrest2⟩ := hrest
      refine List.chain'_cons.mpr
        ⟨?_, ih (a + b.size) ⟨hc, hrest2⟩ (List.chain'_cons.mp hnm).2⟩
      intro hcon
      exact (List.chain'_cons.mp hnm).1 ⟨hcon.1, hcon.2, by omega⟩

theorem merge_chainFrom (l : List Block) (a : Nat) (h : chainFrom a l) :
    chainFrom a (merge_free_blocks l) :=
  mergeLoop_chainFrom l.length l a h

theorem merge_sum (l : List Block) : sumSizes (merge_free_blocks l) = sumSizes l :=
  mergeLoop_sum l.length l

theorem merge_ids_sublist (l : List Block) :
    List.Sublist ((merge_free_blocks l).map Block.id) (l.map Block.id) :=
  mergeLoop_ids_sublist l.length l

theorem merge_noadj (l : List Block) (a : Nat) (h : chainFrom a l) :
    noAdjFree (merge_free_blocks l) :=
  noadj_of_chainFrom_nomergeable _ a (merge_chainFrom l a h)
    (mergeLoop_chain l.length l (by omega))

theorem fillFrom_length : ∀ (cnt : Nat) (pool : List Nat) (a : Nat) (n : String) (i : Nat),
    (fillFrom pool a n i cnt).length = pool.length := by
  intro cnt
  induction cnt with
  | zero => intro pool a n i; rfl
  | succ k ih =>
    intro pool a n i
    simp only [fillFrom]
    rw [ih, List.length_set]

theorem fillRange_length (pool : List Nat) (a : Nat) (n : String) (lo hi : Nat) :
    (fillRange pool a n lo hi).length = pool.length :=
  fillFrom_length (hi - lo) pool a n lo

theorem copyRange_length : ∀ (cnt : Nat) (pool : List Nat) (dst src : Nat),
    (copyRange pool dst src cnt).length = pool.length := by
  intro cnt
  induction cnt with
  | zero => intro pool dst src; rfl
  | succ k ih =>
    intro pool dst src
    simp only [copyRange]
    rw [ih, List.length_set]

/-! ## Decomposition lemmas (pointer identity via unique node ids) -/

theorem ids_decomp (pre suf : List Block) (b : Block)
    (hnd : ((pre ++ b :: suf).map Block.id).Nodup) :
    (∀ x ∈ pre, x.id ≠ b.id) ∧ (∀ x ∈ suf, x.id ≠ b.id) := by
  rw [List.map_append, List.map_cons, List.nodup_append] at hnd
  obtain ⟨h1, h2, h3⟩ := hnd
  constructor
  · intro x hx heq
    exact h3 (List.mem_map_of_mem Block.id hx)
      (by rw [heq]; exact List.mem_cons_self _ _)
  · intro x hx heq
    exact (List.nodup_cons.mp h2).1
      (by rw [← heq]; exact List.mem_map_of_mem Block.id hx)

theorem mark_untouched : ∀ (l : List Block) (i : Nat) (fr : Bool) (n : String),
    (∀ x ∈ l, x.id ≠ i) → mark_block l i fr n = l := by
  intro l
  induction l with
  | nil => intro i fr n _; rfl
  | cons b rest ih =>
    intro i fr n h
    rw [mark_block_cons, if_neg (h b (List.mem_cons_self _ _)),
      ih i fr n (fun x hx => h x (List.mem_cons_of_mem _ hx))]

theorem mark_append (l1 l2 : List Block) (i : Nat) (fr : Bool) (n : String) :
    mark_block (l1 ++ l2) i fr n = mark_block l1 i fr n ++ mark_block l2 i fr n :=
  List.map_append _ _ _

theorem mark_decomp (pre suf : List Block) (b : Block) (fr : Bool) (n : String)
    (hpre : ∀ x ∈ pre, x.id ≠ b.id) (hsuf : ∀ x ∈ suf, x.id ≠ b.id) :
    mark_block (pre ++ b :: suf) b.id fr n
      = pre ++ { b with is_free := fr, variable_name := n } :: suf := by
  rw [mark_append, mark_untouched pre _ _ _ hpre, mark_block_cons, if_pos rfl,
    mark_untouched suf _ _ _ hsuf]

theorem split_block_cons (b : Block) (rest : List Block) (i keep fid : Nat) :
    split_block (b :: rest) i keep fid =
      if b.id = i then
        (if keep < b.size then
          { b with size := keep } :: ⟨ "", b.addr + keep, b.size - keep, true, fid⟩ :: rest
        else b :: rest)
      else b :: split_block rest i keep fid := rfl

theorem block_after_cons (b : Block) (rest : List Block) (i : Nat) :
    block_after (b :: rest) i = if b.id = i then rest.head? else block_after rest i := rfl

theorem grow_in_place_cons (b : Block) (rest : List Block) (i ns nd : Nat) :
    grow_in_place (b :: rest) i ns nd =
      if b.id = i then
        { b with size := ns } ::
          (match rest with
           | [] => []
           | n :: rest2 =>
             if n.size - nd = 0 then rest2
             else { n with addr := n.addr + nd, size := n.size - nd } :: rest2)
      else b :: grow_in_place rest i ns nd := rfl

theorem split_decomp_lt (pre suf : List Block) (b : Block) (keep fid : Nat)
    (hpre : ∀ x ∈ pre, x.id ≠ b.id) (hk : keep < b.size) :
    split_block (pre ++ b :: suf) b.id keep fid
      = pre ++ { b with size := keep } ::
          ⟨ "", b.addr + keep, b.size - keep, true, fid⟩ :: suf := by
  induction pre with
  | nil =>
    rw [List.nil_append, List.nil_append, split_block_cons, if_pos rfl, if_pos hk]
  | cons p pre2 ih =>
    have hp : p.id ≠ b.id := hpre p (List.mem_cons_self _ _)
    rw [List.cons_append, split_block_cons, if_neg hp,
      ih (fun x hx => hpre x (List.mem_cons_of_mem _ hx)), List.cons_append]

theorem split_decomp_ge (pre suf : List Block) (b : Block) (keep fid : Nat)
    (hpre : ∀ x ∈ pre, x.id ≠ b.id) (hk : ¬ keep < b.size) :
    split_block (pre ++ b :: suf) b.id keep fid = pre ++ b :: suf := by
  induction pre with
  | nil =>
    rw [List.nil_append, split_block_cons, if_pos rfl, if_neg hk]
  | cons p pre2 ih =>
    have hp : p.id ≠ b.id := hpre p (List.mem_cons_self _ _)
    rw [List.cons_append, split_block_cons, if_neg hp,
      ih (fun x hx => hpre x (List.mem_cons_of_mem _ hx))]

theorem block_after_decomp (pre suf : List Block) (b : Block)
    (hpre : ∀ x ∈ pre, x.id ≠ b.id) :
    block_after (pre ++ b :: suf) b.id = suf.head? := by
  induction pre with
  | nil =>
    rw [List.nil_append, block_after_cons, if_pos rfl]
  | cons p pre2 ih =>
    have hp : p.id ≠ b.id := hpre p (List.mem_cons_self _ _)
    rw [List.cons_append, block_after_cons, if_neg hp]
    exact ih (fun x hx => hpre x (List.mem_cons_of_mem _ hx))

theorem grow_decomp (pre suf : List Block) (b : Block) (ns nd : Nat)
    (hpre : ∀ x ∈ pre, x.id ≠ b.id) :
    grow_in_place (pre ++ b :: suf) b.id ns nd
      = pre ++ { b with size := ns } ::
          (match suf with
           | [] => []
           | n :: suf2 =>
             if n.size - nd = 0 then suf2
             else { n with addr := n.addr + nd, size := n.size - nd } :: suf2) := by
  induction pre with
  | nil =>
    rw [List.nil_append, List.nil_append, grow_in_place_cons, if_pos rfl]
  | cons p pre2 ih =>
    have hp : p.id ≠ b.id := hpre p (List.mem_cons_self _ _)
    rw [List.cons_append, grow_in_place_cons, if_neg hp,
      ih (fun x hx => hpre x (List.mem_cons_of_mem _ hx)), List.cons_append]

theorem find_block_for_mem : ∀ (l : List Block) (a : Nat) (b : Block),
    find_block_for l a = some b → b ∈ l ∧ b.addr = a ∧ b.is_free = false := by
  intro l
  induction l with
  | nil => intro a b h; simp [find_block_for] at h
  | cons c rest ih =>
    intro a b h
    simp only [find_block_for] at h
    by_cases hc : c.addr = a ∧ c.is_free = false
    · rw [if_pos hc] at h
      cases h
      exact ⟨List.mem_cons_self _ _, hc⟩
    · rw [if_neg hc] at h
      obtain ⟨hm, hprops⟩ := ih a b h
      exact ⟨List.mem_cons_of_mem _ hm, hprops⟩

theorem fresh_not_mem (l : List Block) (nid : Nat) (h : ∀ b ∈ l, b.id < nid) :
    nid ∉ l.map Block.id := by
  intro hmem
  obtain ⟨x, hx, hxe⟩ := List.mem_map.mp hmem
  have := h x hx
  omega

theorem mem_of_ids_mem (l : List Block) (y : Nat) (h : y ∈ l.map Block.id) :
    ∃ x ∈ l, x.id = y :=
  List.mem_map.mp h

/-! ## Pair helpers for the no-adjacent-free invariant -/

theorem okPair_right {b c : Block} (hc : c.is_free = false) :
    ¬(b.is_free = true ∧ c.is_free = true) := by
  intro hcon
  rw [hcon.2] at hc
  cases hc

theorem okPair_left {b c : Block} (hb : b.is_free = false) :
    ¬(b.is_free = true ∧ c.is_free = true) := by
  intro hcon
  rw [hcon.1] at hb
  cases hb

/-- Marking a selected Free node Occupied and splitting off its excess
preserves the no-adjacent-free invariant: the truncated node is Occupied
and the inserted remainder's successor was the Free node's successor,
which was not Free. -/
theorem noadj_occupy_split (pre suf : List Block) (nb : Block) (name : String) (keep fid : Nat)
    (hfree : nb.is_free = true)
    (hnoadj : noAdjFree (pre ++ nb :: suf))
    (hpre : ∀ x ∈ pre, x.id ≠ nb.id) (hsuf : ∀ x ∈ suf, x.id ≠ nb.id) :
    noAdjFree (split_block (mark_block (pre ++ nb :: suf) nb.id false name) nb.id keep fid) := by
  unfold noAdjFree at hnoadj
  rw [List.chain'_append] at hnoadj
  obtain ⟨hpre_ch, hcons_ch, hbound⟩ := hnoadj
  rw [List.chain'_cons'] at hcons_ch
  obtain ⟨hhd, hsuf_ch⟩ := hcons_ch
  rw [mark_decomp pre suf nb false name hpre hsuf]
  by_cases hk : keep < nb.size
  · rw [split_decomp_lt pre suf { nb with is_free := false, variable_name := name } keep fid hpre hk]
    unfold noAdjFree
    rw [List.chain'_append]
    refine ⟨hpre_ch, ?_, ?_⟩
    · rw [List.chain'_cons']
      refine ⟨?_, ?_⟩
      · intro y hy
        simp only [List.head?_cons, Option.mem_def, Option.some.injEq] at hy
        subst hy
        exact okPair_left rfl
      · rw [List.chain'_cons']
        refine ⟨?_, hsuf_ch⟩
        intro y hy
        have hny := hhd y hy
        intro hcon
        exact hny ⟨hfree, hcon.2⟩
    · intro x hx y hy
      simp only [List.head?_cons, Option.mem_def, Option.some.injEq] at hy
      subst hy
      exact okPair_right rfl
  · rw [split_decomp_ge pre suf { nb with is_free := false, variable_name := name } keep fid hpre hk]
    unfold noAdjFree
    rw [List.chain'_append]
    refine ⟨hpre_ch, ?_, ?_⟩
    · rw [List.chain'_cons']
      refine ⟨?_, hsuf_ch⟩
      intro y hy
      exact okPair_left rfl
    · intro x hx y hy
      simp only [List.head?_cons, Option.mem_def, Option.some.injEq] at hy
      subst hy
      exact okPair_right rfl

/-! ## Wrapping subtraction lemmas -/

theorem sizeTMod_pos : 0 < sizeTMod := by norm_num [sizeTMod]

theorem sizeTSub_small {a b : Nat} (hba : b ≤ a) (ha : a < sizeTMod) :
    sizeTSub a b = a - b := by
  unfold sizeTSub
  have h1 : a + sizeTMod - b = sizeTMod + (a - b) := by omega
  rw [h1, Nat.add_mod_left]
  exact Nat.mod_eq_of_lt (by omega)

theorem sizeTSub_big {a b : Nat} (hab : a < b) (hb : b ≤ sizeTMod) :
    sizeTSub a b = sizeTMod - (b - a) := by
  unfold sizeTSub
  have h0 := sizeTMod_pos
  have h1 : a + sizeTMod - b = sizeTMod - (b - a) := by omega
  rw [h1]
  exact Nat.mod_eq_of_lt (by omega)

/-! ## Mark-free-then-merge bundle (used by release and relocation) -/

theorem markmerge_parts (l : List Block) (i : Nat) (fr : Bool) (nm : String) (a : Nat)
    (hch : chainFrom a l) :
    chainFrom a (merge_free_blocks (mark_block l i fr nm)) ∧
    sumSizes (merge_free_blocks (mark_block l i fr nm)) = sumSizes l ∧
    noAdjFree (merge_free_blocks (mark_block l i fr nm)) ∧
    List.Sublist ((merge_free_blocks (mark_block l i fr nm)).map Block.id)
      (l.map Block.id) := by
  have hchm : chainFrom a (mark_block l i fr nm) := (chainFrom_mark l a i fr nm).mpr hch
  refine ⟨merge_chainFrom _ a hchm, ?_, merge_noadj _ a hchm, ?_⟩
  · rw [merge_sum, sumSizes_mark]
  · have h1 := merge_ids_sublist (mark_block l i fr nm)
    rw [ids_mark] at h1
    exact h1

theorem block_after_mem : ∀ (l : List Block) (i : Nat) (n : Block),
    block_after l i = some n → n ∈ l := by
  intro l
  induction l with
  | nil => intro i n h; simp [block_after] at h
  | cons b rest ih =>
    intro i n h
    rw [block_after_cons] at h
    by_cases hb : b.id = i
    · rw [if_pos hb] at h
      cases rest with
      | nil => simp at h
      | cons c rest2 =>
        simp only [List.head?_cons, Option.some.injEq] at h
        subst h
        exact List.mem_cons_of_mem _ (List.mem_cons_self _ _)
    · rw [if_neg hb] at h
      exact List.mem_cons_of_mem _ (ih i n h)

theorem grow_decomp_cons (pre suf2 : List Block) (b n : Block) (ns nd : Nat)
    (hpre : ∀ x ∈ pre, x.id ≠ b.id) :
    grow_in_place (pre ++ b :: n :: suf2) b.id ns nd
      = pre ++ { b with size := ns } ::
          (if n.size - nd = 0 then suf2
           else { n with addr := n.addr + nd, size := n.size - nd } :: suf2) :=
  grow_decomp pre (n :: suf2) b ns nd hpre

/-- The in-place grow step preserves the partition, total size,
no-adjacent-free property and uses no new node ids. -/
theorem grow_in_place_parts (pre suf2 : List Block) (block n : Block) (ns : Nat) (a : Nat)
    (hocc : block.is_free = false)
    (hble : block.size ≤ ns)
    (hneed : ns - block.size ≤ n.size)
    (hch : chainFrom a (pre ++ block :: n :: suf2))
    (hnoadj : noAdjFree (pre ++ block :: n :: suf2))
    (hpre : ∀ x ∈ pre, x.id ≠ block.id) :
    chainFrom a (grow_in_place (pre ++ block :: n :: suf2) block.id ns (ns - block.size)) ∧
    sumSizes (grow_in_place (pre ++ block :: n :: suf2) block.id ns (ns - block.size))
      = sumSizes (pre ++ block :: n :: suf2) ∧
    noAdjFree (grow_in_place (pre ++ block :: n :: suf2) block.id ns (ns - block.size)) ∧
    List.Sublist
      ((grow_in_place (pre ++ block :: n :: suf2) block.id ns (ns - block.size)).map Block.id)
      ((pre ++ block :: n :: suf2).map Block.id) := by
  rw [grow_decomp_cons pre suf2 block n ns (ns - block.size) hpre]
  rw [chainFrom_append] at hch
  obtain ⟨hchpre, hchin⟩ := hch
  obtain ⟨hbaddr, hchin2⟩ := hchin
  obtain ⟨hnaddr, hchsuf2⟩ := hchin2
  unfold noAdjFree at hnoadj
  rw [List.chain'_append] at hnoadj
  obtain ⟨hnpre, hncons, hnbound⟩ := hnoadj
  have hnc := List.chain'_cons.mp hncons
  obtain ⟨hpair_bn, hncons2⟩ := hnc
  rw [List.chain'_cons'] at hncons2
  obtain ⟨hn_suf, hnsuf2⟩ := hncons2
  by_cases h0 : n.size - (ns - block.size) = 0
  · rw [if_pos h0]
    refine ⟨?_, ?_, ?_, ?_⟩
    · rw [chainFrom_append]
      refine ⟨hchpre, hbaddr, ?_⟩
      show chainFrom (a + sumSizes pre + ns) suf2
      have harith : a + sumSizes pre + ns = a + sumSizes pre + block.size + n.size := by
        omega
      rw [harith]
      exact hchsuf2
    · rw [sumSizes_append, sumSizes_append, sumSizes_cons, sumSizes_cons, sumSizes_cons]
      show sumSizes pre + (ns + sumSizes suf2)
        = sumSizes pre + (block.size + (n.size + sumSizes suf2))
      omega
    · unfold noAdjFree
      rw [List.chain'_append]
      refine ⟨hnpre, ?_, ?_⟩
      · rw [List.chain'_cons']
        exact ⟨fun y _ => okPair_left hocc, hnsuf2⟩
      · intro x hx y hy
        simp only [List.head?_cons, Option.mem_def, Option.some.injEq] at hy
        subst hy
        exact okPair_right hocc
    · rw [List.map_append, List.map_append, List.map_cons, List.map_cons, List.map_cons]
      refine List.Sublist.append_left ?_ _
      show List.Sublist (block.id :: suf2.map Block.id)
        (block.id :: n.id :: suf2.map Block.id)
      exact List.Sublist.cons₂ _ (List.Sublist.cons _ (List.Sublist.refl _))
  · rw [if_neg h0]
    refine ⟨?_, ?_, ?_, ?_⟩
    · rw [chainFrom_append]
      refine ⟨hchpre, hbaddr, ?_, ?_⟩
      · show n.addr + (ns - block.size) = a + sumSizes pre + ns
        omega
      · show chainFrom (a + sumSizes pre + ns + (n.size - (ns - block.size))) suf2
        have harith : a + sumSizes pre + ns + (n.size - (ns - block.size))
            = a + sumSizes pre + block.size + n.size := by omega
        rw [harith]
        exact hchsuf2
    · rw [sumSizes_append, sumSizes_append, sumSizes_cons, sumSizes_cons,
        sumSizes_cons, sumSizes_cons]
      show sumSizes pre + (ns + (n.size - (ns - block.size) + sumSizes suf2))
        = sumSizes pre + (block.size + (n.size + sumSizes suf2))
      omega
    · unfold noAdjFree
      rw [List.chain'_append]
      refine ⟨hnpre, ?_, ?_⟩
      · rw [List.chain'_cons]
        refine ⟨okPair_left hocc, ?_⟩
        rw [List.chain'_cons']
        exact ⟨fun y hy => hn_suf y hy, hnsuf2⟩
      · intro x hx y hy
        simp only [List.head?_cons, Option.mem_def, Option.some.injEq] at hy
        subst hy
        exact okPair_right hocc
    · rw [List.map_append, List.map_append, List.map_cons, List.map_cons,
        List.map_cons, List.map_cons]

/-! ## Per-operation preservation of well-formedness -/

theorem alloc_WF {P : Nat} {mm mm' : MemoryManager} {name : String} {size : Nat}
    (hwf : WF P mm) (h : resultState (alloc_memory mm name size) = some mm') :
    WF P mm' := by
  unfold alloc_memory at h
  by_cases h1 : (find_variable mm.vars name).isSome = true
  · rw [if_pos h1] at h
    obtain rfl := Option.some.inj h
    exact hwf
  · rw [if_neg h1] at h
    by_cases h2 : MAX_VARIABLES ≤ mm.vars.length
    · rw [if_pos h2] at h
      obtain rfl := Option.some.inj h
      exact hwf
    · rw [if_neg h2] at h
      cases hsel : select_block mm size with
      | none =>
        rw [hsel] at h
        obtain rfl := Option.some.inj h
        exact hwf
      | some blk =>
        rw [hsel] at h
        obtain rfl := Option.some.inj h
        obtain ⟨hbm, hbf, hbs⟩ := select_block_mem mm size blk hsel
        obtain ⟨pre, suf, hdec⟩ := List.append_of_mem hbm
        have hnd' : ((pre ++ blk :: suf).map Block.id).Nodup := by
          rw [← hdec]; exact hwf.ids_nd
        obtain ⟨hpre, hsuf⟩ := ids_decomp pre suf blk hnd'
        have hfresh : mm.nextId ∉ mm.blocks.map Block.id := fresh_not_mem _ _ hwf.ids_lt
        constructor
        · exact hwf.pool_sz
        · show (fillRange mm.pool blk.addr name 0 size).length = P
          rw [fillRange_length]
          exact hwf.pool_len
        · exact chainFrom_split _ _ _ _ _ ((chainFrom_mark _ _ _ _ _).mpr hwf.chain)
        · show sumSizes (split_block (mark_block mm.blocks blk.id false name)
            blk.id size mm.nextId) = P
          rw [sumSizes_split, sumSizes_mark]
          exact hwf.total
        · show noAdjFree (split_block (mark_block mm.blocks blk.id false name)
            blk.id size mm.nextId)
          rw [hdec]
          exact noadj_occupy_split pre suf blk name size mm.nextId hbf
            (hdec ▸ hwf.noadj) hpre hsuf
        · intro b hb
          show b.id < mm.nextId + 1
          have hmem := List.mem_map_of_mem Block.id hb
          rcases split_ids_sub _ _ _ _ _ hmem with hin | hfid
          · rw [ids_mark] at hin
            obtain ⟨x, hx, hxe⟩ := mem_of_ids_mem _ _ hin
            have := hwf.ids_lt x hx
            omega
          · omega
        · show ((split_block (mark_block mm.blocks blk.id false name)
            blk.id size mm.nextId).map Block.id).Nodup
          apply split_ids_nodup
          · rw [ids_mark]
            exact hwf.ids_nd
          · rw [ids_mark]
            exact hfresh

theorem free_WF {P : Nat} {mm mm' : MemoryManager} {name : String}
    (hwf : WF P mm) (h : resultState (free_memory mm name) = some mm') : WF P mm' := by
  unfold free_memory at h
  split at h
  · obtain rfl := Option.some.inj h
    exact hwf
  · rename_i var
    split at h
    · obtain rfl := Option.some.inj h
      exact hwf
    · rename_i block hfb
      obtain rfl := Option.some.inj h
      obtain ⟨hch, hsum, hnoadj, hsub⟩ := markmerge_parts mm.blocks block.id true "" 0 hwf.chain
      constructor
      · exact hwf.pool_sz
      · exact hwf.pool_len
      · exact hch
      · rw [hsum]
        exact hwf.total
      · exact hnoadj
      · intro b hb
        show b.id < mm.nextId
        have hmem := List.mem_map_of_mem Block.id hb
        obtain ⟨x, hx, hxe⟩ := mem_of_ids_mem _ _ (hsub.subset hmem)
        have := hwf.ids_lt x hx
        omega
      · exact List.Nodup.sublist hsub hwf.ids_nd

theorem relocate_WF {P : Nat} {mm mm' : MemoryManager} {name : String} {var : Variable}
    {blockId old_size new_size : Nat}
    (hwf : WF P mm)
    (h : resultState (relocate_grow mm name var blockId old_size new_size) = some mm') :
    WF P mm' := by
  unfold relocate_grow at h
  obtain ⟨hchM, hsumM, hnoadjM, hsubM⟩ :=
    markmerge_parts mm.blocks blockId true "" 0 hwf.chain
  have hndM : ((merge_free_blocks (mark_block mm.blocks blockId true "")).map Block.id).Nodup :=
    List.Nodup.sublist hsubM hwf.ids_nd
  have hltM : ∀ b ∈ merge_free_blocks (mark_block mm.blocks blockId true ""),
      b.id < mm.nextId := by
    intro b hb
    have hmem := List.mem_map_of_mem Block.id hb
    obtain ⟨x, hx, hxe⟩ := mem_of_ids_mem _ _ (hsubM.subset hmem)
    have := hwf.ids_lt x hx
    omega
  cases hsel : select_block
      { mm with blocks := merge_free_blocks (mark_block mm.blocks blockId true "") }
      new_size with
  | none =>
    rw [hsel] at h
    cases hfid : find_by_id (merge_free_blocks (mark_block mm.blocks blockId true ""))
        blockId with
    | none =>
      rw [hfid] at h
      simp [resultState] at h
    | some nd =>
      rw [hfid] at h
      obtain rfl := Option.some.inj h
      constructor
      · exact hwf.pool_sz
      · exact hwf.pool_len
      · exact (chainFrom_mark _ _ _ _ _).mpr hchM
      · show sumSizes (mark_block (merge_free_blocks (mark_block mm.blocks blockId true ""))
          blockId false name) = P
        rw [sumSizes_mark, hsumM]
        exact hwf.total
      · exact noadj_mark_occ _ _ _ hnoadjM
      · intro b hb
        show b.id < mm.nextId
        have hmem := List.mem_map_of_mem Block.id hb
        rw [ids_mark] at hmem
        obtain ⟨x, hx, hxe⟩ := mem_of_ids_mem _ _ (hsubM.subset hmem)
        have := hwf.ids_lt x hx
        omega
      · show ((mark_block (merge_free_blocks (mark_block mm.blocks blockId true ""))
          blockId false name).map Block.id).Nodup
        rw [ids_mark]
        exact hndM
  | some nb =>
    rw [hsel] at h
    obtain rfl := Option.some.inj h
    obtain ⟨hbm, hbf, hbs⟩ := select_block_mem _ new_size nb hsel
    have hbm2 : nb ∈ merge_free_blocks (mark_block mm.blocks blockId true "") := hbm
    obtain ⟨pre, suf, hdec⟩ := List.append_of_mem hbm2
    have hnd' : ((pre ++ nb :: suf).map Block.id).Nodup := by
      rw [← hdec]
      exact hndM
    obtain ⟨hpre, hsuf⟩ := ids_decomp pre suf nb hnd'
    have hfreshM : mm.nextId
        ∉ (merge_free_blocks (mark_block mm.blocks blockId true "")).map Block.id :=
      fresh_not_mem _ _ hltM
    constructor
    · exact hwf.pool_sz
    · show (fillRange (copyRange mm.pool nb.addr var.addr (min old_size new_size))
        nb.addr name (min old_size new_size) new_size).length = P
      rw [fillRange_length, copyRange_length]
      exact hwf.pool_len
    · exact chainFrom_split _ _ _ _ _ ((chainFrom_mark _ _ _ _ _).mpr hchM)
    · show sumSizes (split_block (mark_block
        (merge_free_blocks (mark_block mm.blocks blockId true "")) nb.id false name)
        nb.id new_size mm.nextId) = P
      rw [sumSizes_split, sumSizes_mark, hsumM]
      exact hwf.total
    · show noAdjFree (split_block (mark_block
        (merge_free_blocks (mark_block mm.blocks blockId true "")) nb.id false name)
        nb.id new_size mm.nextId)
      rw [hdec]
      exact noadj_occupy_split pre suf nb name new_size mm.nextId hbf
        (hdec ▸ hnoadjM) hpre hsuf
    · intro b hb
      show b.id < mm.nextId + 1
      have hmem := List.mem_map_of_mem Block.id hb
      rcases split_ids_sub _ _ _ _ _ hmem with hin | hfid2
      · rw [ids_mark] at hin
        obtain ⟨x, hx, hxe⟩ := mem_of_ids_mem _ _ (hsubM.subset hin)
        have := hwf.ids_lt x hx
        omega
      · omega
    · show ((split_block (mark_block
        (merge_free_blocks (mark_block mm.blocks blockId true "")) nb.id false name)
        nb.id new_size mm.nextId).map Block.id).Nodup
      apply split_ids_nodup
      · rw [ids_mark]
        exact hndM
      · rw [ids_mark]
        exact hfreshM

theorem realloc_WF {P : Nat} {mm mm' : MemoryManager} {name : String} {new_size : Nat}
    (hP : P < 2 ^ 63) (hns : new_size < sizeTMod) (hwf : WF P mm)
    (h : resultState (realloc_memory mm name new_size) = some mm') : WF P mm' := by
  unfold realloc_memory at h
  split at h
  · obtain rfl := Option.some.inj h
    exact hwf
  · rename_i var hfv
    split at h
    · obtain rfl := Option.some.inj h
      exact hwf
    · rename_i block hfb
      obtain ⟨hbm, hba, hbocc⟩ := find_block_for_mem _ _ _ hfb
      by_cases hsh : new_size ≤ var.size
      · rw [if_pos hsh] at h
        obtain rfl := Option.some.inj h
        constructor
        · exact hwf.pool_sz
        · show (fillRange mm.pool block.addr name 0 new_size).length = P
          rw [fillRange_length]
          exact hwf.pool_len
        · show chainFrom 0 (if new_size < block.size then
              merge_free_blocks (split_block mm.blocks block.id new_size mm.nextId)
            else mm.blocks)
          by_cases hlt : new_size < block.size
          · rw [if_pos hlt]
            exact merge_chainFrom _ 0 (chainFrom_split _ _ _ _ _ hwf.chain)
          · rw [if_neg hlt]
            exact hwf.chain
        · show sumSizes (if new_size < block.size then
              merge_free_blocks (split_block mm.blocks block.id new_size mm.nextId)
            else mm.blocks) = P
          by_cases hlt : new_size < block.size
          · rw [if_pos hlt, merge_sum, sumSizes_split]
            exact hwf.total
          · rw [if_neg hlt]
            exact hwf.total
        · show noAdjFree (if new_size < block.size then
              merge_free_blocks (split_block mm.blocks block.id new_size mm.nextId)
            else mm.blocks)
          by_cases hlt : new_size < block.size
          · rw [if_pos hlt]
            exact merge_noadj _ 0 (chainFrom_split _ _ _ _ _ hwf.chain)
          · rw [if_neg hlt]
            exact hwf.noadj
        · intro b hb
          show b.id < mm.nextId + 1
          by_cases hlt : new_size < block.size
          · rw [if_pos hlt] at hb
            have hmem := List.mem_map_of_mem Block.id hb
            have hmem2 := (merge_ids_sublist _).subset hmem
            rcases split_ids_sub _ _ _ _ _ hmem2 with hin | hfid
            · obtain ⟨x, hx, hxe⟩ := mem_of_ids_mem _ _ hin
              have := hwf.ids_lt x hx
              omega
            · omega
          · rw [if_neg hlt] at hb
            have := hwf.ids_lt b hb
            omega
        · show ((if new_size < block.size then
              merge_free_blocks (split_block mm.blocks block.id new_size mm.nextId)
            else mm.blocks).map Block.id).Nodup
          by_cases hlt : new_size < block.size
          · rw [if_pos hlt]
            exact List.Nodup.sublist (merge_ids_sublist _)
              (split_ids_nodup _ _ _ _ hwf.ids_nd (fresh_not_mem _ _ hwf.ids_lt))
          · rw [if_neg hlt]
            exact hwf.ids_nd
      · rw [if_neg hsh] at h
        split at h
        · rename_i n hna
          by_cases hip : new_size ≤ block.size +
                (if n.is_free = true ∧ block.addr + block.size = n.addr then n.size else 0)
              ∧ n.is_free = true ∧ block.addr + block.size = n.addr
              ∧ sizeTSub new_size block.size ≤ n.size
          · rw [if_pos hip] at h
            obtain rfl := Option.some.inj h
            obtain ⟨hav, hnf, hadj, hneed⟩ := hip
            have hnm : n ∈ mm.blocks := block_after_mem _ _ _ hna
            have hbb := chainFrom_bounds mm.blocks 0 block hwf.chain hbm
            have hnb := chainFrom_bounds mm.blocks 0 n hwf.chain hnm
            have htot := hwf.total
            have hsm : sizeTMod = 2 ^ 64 := rfl
            have hble : block.size ≤ new_size := by
              by_contra hgt
              push_neg at hgt
              have hbig := sizeTSub_big hgt (by omega)
              rw [hbig] at hneed
              omega
            have hsub_eq : sizeTSub new_size block.size = new_size - block.size :=
              sizeTSub_small hble hns
            rw [hsub_eq] at hneed
            rw [hsub_eq]
            obtain ⟨pre, suf, hdec⟩ := List.append_of_mem hbm
            have hnd' : ((pre ++ block :: suf).map Block.id).Nodup := by
              rw [← hdec]
              exact hwf.ids_nd
            obtain ⟨hpre, hsuf⟩ := ids_decomp pre suf block hnd'
            have hhead : suf.head? = some n := by
              rw [← block_after_decomp pre suf block hpre, ← hdec]
              exact hna
            cases suf with
            | nil => simp at hhead
            | cons n2 suf2 =>
              have hn2 : n2 = n := by simpa using hhead
              subst hn2
              obtain ⟨hgch, hgsum, hgnoadj, hgsub⟩ :=
                grow_in_place_parts pre suf2 block n2 new_size 0 hbocc hble hneed
                  (hdec ▸ hwf.chain) (hdec ▸ hwf.noadj) hpre
              constructor
              · exact hwf.pool_sz
              · show (fillRange mm.pool block.addr name var.size new_size).length = P
                rw [fillRange_length]
                exact hwf.pool_len
              · show chainFrom 0
                  (grow_in_place mm.blocks block.id new_size (new_size - block.size))
                rw [hdec]
                exact hgch
              · show sumSizes
                  (grow_in_place mm.blocks block.id new_size (new_size - block.size)) = P
                rw [hdec, hgsum, ← hdec]
                exact hwf.total
              · show noAdjFree
                  (grow_in_place mm.blocks block.id new_size (new_size - block.size))
                rw [hdec]
                exact hgnoadj
              · intro b hb
                show b.id < mm.nextId
                rw [hdec] at hb
                have hmem := List.mem_map_of_mem Block.id hb
                have hmem2 := hgsub.subset hmem
                obtain ⟨x, hx, hxe⟩ := mem_of_ids_mem _ _ hmem2
                have hx2 : x ∈ mm.blocks := by
                  rw [hdec]
                  exact hx
                have := hwf.ids_lt x hx2
                omega
              · show ((grow_in_place mm.blocks block.id new_size
                  (new_size - block.size)).map Block.id).Nodup
                rw [hdec]
                exact List.Nodup.sublist hgsub hnd'
          · rw [if_neg hip] at h
            exact relocate_WF hwf h
        · exact relocate_WF hwf h

theorem step_WF {P : Nat} {mm mm' : MemoryManager} {op : Op}
    (hP : P < 2 ^ 63) (hwf : WF P mm) (hsz : opSizeOk op)
    (h : resultState (applyOp mm op) = some mm') : WF P mm' := by
  cases op with
  | alloc n s => exact alloc_WF hwf h
  | resize n s => exact realloc_WF hP hsz hwf h
  | release n => exact free_WF hwf h

/-- Every state reachable from a fresh pool is well-formed. -/
theorem reachable_WF {P : Nat} {alg : Int} {mm : MemoryManager}
    (hP : P < 2 ^ 63) (hr : Reachable P alg mm) : WF P mm := by
  induction hr with
  | init =>
    constructor
    · rfl
    · exact List.length_replicate _ _
    · exact ⟨rfl, trivial⟩
    · show sumSizes [⟨ "", 0, P, true, 0⟩] = P
      simp [sumSizes]
    · exact List.chain'_singleton _
    · intro b hb
      have hb2 : b ∈ [(⟨ "", 0, P, true, 0⟩ : Block)] := hb
      rw [List.mem_singleton] at hb2
      rw [hb2]
      exact Nat.zero_lt_one
    · exact List.nodup_singleton _
  | step op hprev hsz hres ih =>
    exact step_WF hP ih hsz hres

/-- Claim C3: in every state reachable from a fresh pool by completed
operations, the Block List is an address-ordered partition of `[0, P)`
— each segment starts where the previous one ends, the first starts at
0, and the segment lengths sum to `P`, so the last ends at `P` — and no
two consecutive segments are both Free. -/
theorem claim_C3 (P : Nat) (alg : Int) (mm : MemoryManager)
    (hP : P < 2 ^ 63) (hr : Reachable P alg mm) :
    chainFrom 0 mm.blocks ∧ sumSizes mm.blocks = P ∧ noAdjFree mm.blocks := by
  have hwf : WF P mm := reachable_WF hP hr
  exact ⟨hwf.chain, hwf.total, hwf.noadj⟩

theorem claim_C3_witness :
    chainFrom 0 (init_memory_manager 100 0).blocks ∧
    sumSizes (init_memory_manager 100 0).blocks = 100 ∧
    noAdjFree (init_memory_manager 100 0).blocks :=
  claim_C3 100 0 (init_memory_manager 100 0) (by norm_num) Reachable.init

/-! ## Byte-level lemmas for the fill pattern -/

theorem getD_set_eq : ∀ (l : List Nat) (i v : Nat), i < l.length →
    (l.set i v).getD i 0 = v := by
  intro l
  induction l with
  | nil => intro i v h; simp at h
  | cons a rest ih =>
    intro i v h
    cases i with
    | zero => rfl
    | succ k =>
      show (rest.set k v).getD k 0 = v
      exact ih k v (by simpa using Nat.lt_of_succ_lt_succ h)

theorem getD_set_ne : ∀ (l : List Nat) (i j v : Nat), i ≠ j →
    (l.set i v).getD j 0 = l.getD j 0 := by
  intro l
  induction l with
  | nil => intro i j v _; rfl
  | cons a rest ih =>
    intro i j v hij
    cases i with
    | zero =>
      cases j with
      | zero => exact absurd rfl hij
      | succ m => rfl
    | succ k =>
      cases j with
      | zero => rfl
      | succ m =>
        show (rest.set k v).getD m 0 = rest.getD m 0
        exact ih k m v (fun he => hij (by rw [he]))

theorem fillFrom_getD_out : ∀ (cnt : Nat) (pool : List Nat) (a : Nat) (nm : String) (i j : Nat),
    (j < i ∨ i + cnt ≤ j) →
    (fillFrom pool a nm i cnt).getD (a + j) 0 = pool.getD (a + j) 0 := by
  intro cnt
  induction cnt with
  | zero => intro pool a nm i j _; rfl
  | succ k ih =>
    intro pool a nm i j hj
    simp only [fillFrom]
    rw [ih _ a nm (i + 1) j (by omega)]
    exact getD_set_ne _ _ _ _ (by omega)

theorem fillFrom_getD_in : ∀ (cnt : Nat) (pool : List Nat) (a : Nat) (nm : String) (i j : Nat),
    i ≤ j → j < i + cnt → a + j < pool.length →
    (fillFrom pool a nm i cnt).getD (a + j) 0 = patByte nm j := by
  intro cnt
  induction cnt with
  | zero => intro pool a nm i j h1 h2 _; omega
  | succ k ih =>
    intro pool a nm i j h1 h2 h3
    simp only [fillFrom]
    by_cases hji : j = i
    · subst hji
      rw [fillFrom_getD_out k _ a nm (j + 1) j (by omega)]
      exact getD_set_eq _ _ _ h3
    · rw [ih _ a nm (i + 1) j (by omega) (by omega) (by rw [List.length_set]; exact h3)]

theorem fillRange_getD (pool : List Nat) (a : Nat) (nm : String) (lo hi j : Nat)
    (h1 : lo ≤ j) (h2 : j < hi) (h3 : a + j < pool.length) :
    (fillRange pool a nm lo hi).getD (a + j) 0 = patByte nm j :=
  fillFrom_getD_in (hi - lo) pool a nm lo j h1 (by omega) h3

/-! ## Registry lookup and update lemmas -/

theorem find_variable_cons (v : Variable) (rest : List Variable) (nm : String) :
    find_variable (v :: rest) nm = if v.name = nm then some v else find_variable rest nm := rfl

theorem update_variable_cons (v : Variable) (rest : List Variable) (nm : String) (a s : Nat) :
    update_variable (v :: rest) nm a s =
      if v.name = nm then { v with addr := a, size := s } :: rest
      else v :: update_variable rest nm a s := rfl

theorem find_variable_update : ∀ (vars : List Variable) (nm : String) (a s : Nat),
    find_variable (update_variable vars nm a s) nm
      = (find_variable vars nm).map (fun v => { v with addr := a, size := s }) := by
  intro vars
  induction vars with
  | nil => intro nm a s; rfl
  | cons v rest ih =>
    intro nm a s
    by_cases hv : v.name = nm
    · rw [update_variable_cons, if_pos hv, find_variable_cons,
        if_pos (show ({ v with addr := a, size := s } : Variable).name = nm from hv),
        find_variable_cons, if_pos hv]
      rfl
    · rw [update_variable_cons, if_neg hv, find_variable_cons, if_neg hv,
        find_variable_cons, if_neg hv]
      exact ih nm a s

theorem find_variable_append_right : ∀ (vars : List Variable) (v : Variable) (nm : String),
    find_variable vars nm = none →
    find_variable (vars ++ [v]) nm = if v.name = nm then some v else none := by
  intro vars
  induction vars with
  | nil => intro v nm _; rfl
  | cons w rest ih =>
    intro v nm h
    rw [find_variable_cons] at h
    by_cases hw : w.name = nm
    · rw [if_pos hw] at h
      cases h
    · rw [if_neg hw] at h
      rw [List.cons_append, find_variable_cons, if_neg hw]
      exact ih v nm h

/-! ## Fill law for the relocation branch -/

theorem relocate_fill {P : Nat} {mm mm' : MemoryManager} {name : String} {old : Variable}
    {blockId n : Nat}
    (hwf : WF P mm) (hfvm : find_variable mm.vars name = some old) (hgrow : old.size < n)
    (hok : relocate_grow mm name old blockId old.size n = .ok mm') :
    ∀ i, old.size ≤ i → i < n → ∃ v, find_variable mm'.vars name = some v ∧
      mm'.pool.getD (v.addr + i) 0 = patByte name i := by
  unfold relocate_grow at hok
  obtain ⟨hchM, hsumM, hnoadjM, hsubM⟩ :=
    markmerge_parts mm.blocks blockId true "" 0 hwf.chain
  split at hok
  · split at hok
    · exact OpResult.noConfusion hok
    · exact OpResult.noConfusion hok
  · rename_i nb hsel
    obtain rfl := OpResult.ok.inj hok
    obtain ⟨hbm, hbf, hbs⟩ := select_block_mem _ n nb hsel
    have hbm2 : nb ∈ merge_free_blocks (mark_block mm.blocks blockId true "") := hbm
    have hbound := chainFrom_bounds _ 0 nb hchM hbm2
    have hmin : min old.size n = old.size := Nat.min_eq_left (Nat.le_of_lt hgrow)
    intro i hi1 hi2
    refine ⟨{ old with addr := nb.addr, size := n }, ?_, ?_⟩
    · show find_variable (update_variable mm.vars name nb.addr n) name = _
      rw [find_variable_update, hfvm]
      rfl
    · show (fillRange (copyRange mm.pool nb.addr old.addr (min old.size n))
        nb.addr name (min old.size n) n).getD (nb.addr + i) 0 = patByte name i
      rw [hmin]
      refine fillRange_getD _ _ _ _ _ _ hi1 hi2 ?_
      rw [copyRange_length]
      have hlen := hwf.pool_len
      have htot := hsumM
      have htot2 := hwf.total
      omega

/-- Claim C6: immediately after a successful `allocate(name, n)` each
byte at offset `i < n` of the variable's storage equals
`name[i mod len(name)]` (0 for the empty name), and immediately after
the growing portion of a successful `resize(name, n)` from `old.size`
to `n`, each byte at offset `i` with `old.size ≤ i < n` of the
variable's (possibly relocated) storage equals the same pattern. -/
theorem claim_C6 (P : Nat) (alg : Int) (mm : MemoryManager)
    (hP : P < 2 ^ 63) (hr : Reachable P alg mm) (name : String) (n : Nat)
    (hn : n < sizeTMod) :
    (∀ mm', alloc_memory mm name n = .ok mm' →
      ∀ i, i < n → ∃ v, find_variable mm'.vars name = some v ∧
        mm'.pool.getD (v.addr + i) 0 = patByte name i) ∧
    (∀ mm' old, find_variable mm.vars name = some old → old.size < n →
      realloc_memory mm name n = .ok mm' →
      ∀ i, old.size ≤ i → i < n → ∃ v, find_variable mm'.vars name = some v ∧
        mm'.pool.getD (v.addr + i) 0 = patByte name i) := by
  have hwf : WF P mm := reachable_WF hP hr
  constructor
  · intro mm' hok i hi
    unfold alloc_memory at hok
    by_cases h1 : (find_variable mm.vars name).isSome = true
    · rw [if_pos h1] at hok
      exact OpResult.noConfusion hok
    · rw [if_neg h1] at hok
      by_cases h2 : MAX_VARIABLES ≤ mm.vars.length
      · rw [if_pos h2] at hok
        exact OpResult.noConfusion hok
      · rw [if_neg h2] at hok
        cases hsel : select_block mm n with
        | none =>
          rw [hsel] at hok
          exact OpResult.noConfusion hok
        | some blk =>
          rw [hsel] at hok
          obtain rfl := OpResult.ok.inj hok
          obtain ⟨hbm, hbf, hbs⟩ := select_block_mem mm n blk hsel
          have hbound := chainFrom_bounds _ 0 blk hwf.chain hbm
          have hfvnone : find_variable mm.vars name = none := by
            cases hfv : find_variable mm.vars name with
            | none => rfl
            | some w => rw [hfv] at h1; exact absurd rfl h1
          refine ⟨⟨name, blk.addr, n⟩, ?_, ?_⟩
          · show find_variable (mm.vars ++ [⟨name, blk.addr, n⟩]) name = _
            rw [find_variable_append_right mm.vars _ name hfvnone,
              if_pos (show (⟨name, blk.addr, n⟩ : Variable).name = name from rfl)]
          · show (fillRange mm.pool blk.addr name 0 n).getD (blk.addr + i) 0 = patByte name i
            refine fillRange_getD _ _ _ _ _ _ (Nat.zero_le i) hi ?_
            have hlen := hwf.pool_len
            have htot := hwf.total
            omega
  · intro mm' old hfvm hgrow hok
    unfold realloc_memory at hok
    split at hok
    · exact OpResult.noConfusion hok
    · rename_i var hfv
      rw [hfvm] at hfv
      obtain rfl := Option.some.inj hfv
      split at hok
      · exact OpResult.noConfusion hok
      · rename_i block hfb
        obtain ⟨hbm, hba, hbocc⟩ := find_block_for_mem _ _ _ hfb
        rw [if_neg (by omega)] at hok
        split at hok
        · rename_i nn hna
          by_cases hip : n ≤ block.size +
                (if nn.is_free = true ∧ block.addr + block.size = nn.addr then nn.size else 0)
              ∧ nn.is_free = true ∧ block.addr + block.size = nn.addr
              ∧ sizeTSub n block.size ≤ nn.size
          · rw [if_pos hip] at hok
            obtain rfl := OpResult.ok.inj hok
            obtain ⟨hav, hnf, hadj, hneed⟩ := hip
            have hnm : nn ∈ mm.blocks := block_after_mem _ _ _ hna
            have hbb := chainFrom_bounds mm.blocks 0 block hwf.chain hbm
            have hnb := chainFrom_bounds mm.blocks 0 nn hwf.chain hnm
            have htot := hwf.total
            have hsm : sizeTMod = 2 ^ 64 := rfl
            have hble : block.size ≤ n := by
              by_contra hgt
              push_neg at hgt
              have hbig := sizeTSub_big hgt (by omega)
              rw [hbig] at hneed
              omega
            have hsub_eq : sizeTSub n block.size = n - block.size :=
              sizeTSub_small hble hn
            rw [hsub_eq] at hneed
            intro i hi1 hi2
            refine ⟨{ old with addr := old.addr, size := n }, ?_, ?_⟩
            · show find_variable (update_variable mm.vars name old.addr n) name = _
              rw [find_variable_update, hfvm]
              rfl
            · show (fillRange mm.pool block.addr name old.size n).getD
                ({ old with addr := old.addr, size := n }.addr + i) 0 = patByte name i
              have haddr : ({ old with addr := old.addr, size := n } : Variable).addr
                  = block.addr := hba.symm
              rw [haddr]
              refine fillRange_getD _ _ _ _ _ _ hi1 hi2 ?_
              have hlen := hwf.pool_len
              omega
          · rw [if_neg hip] at hok
            exact relocate_fill hwf hfvm hgrow hok
        · exact relocate_fill hwf hfvm hgrow hok

theorem claim_C6_witness :
    ∃ s v, alloc_memory (init_memory_manager 10 0) "ab" 5 = OpResult.ok s ∧
      find_variable s.vars "ab" = some v ∧ s.pool.getD (v.addr + 3) 0 = patByte "ab" 3 := by
  have h := (claim_C6 10 0 (init_memory_manager 10 0) (by norm_num) Reachable.init
    "ab" 5 (by norm_num [sizeTMod])).1
  obtain ⟨v, hv1, hv2⟩ := h _ rfl 3 (by norm_num)
  exact ⟨_, v, rfl, hv1, hv2⟩

end MemMgr
